import Mathlib

/-!
Verification of the c-hashmap engine (src/map.c, src/map.h): a shallow embedding
of the open-addressed, insertion-ordered hash table, its operations, and proofs
relating them to an insertion-ordered association-list model.
-/

set_option linter.unusedVariables false

namespace CHashmap

/-- Keys are byte sequences (`const void* key` plus `size_t ksize` in the source);
we model the pointed-to bytes as a list of naturals (taken as unsigned values). -/
abbrev Key := List Nat

/-- Translation of `struct bucket` (src/map.c lines 16-27): the intrusive
order-list pointer `next` becomes an optional index into the bucket array
(`none` = NULL), and the key pointer becomes an optional byte list (`none` =
NULL key pointer). -/
structure Bucket where
  next : Option Nat
  key : Option Key
  ksize : Nat
  hash : Nat
  value : Nat
deriving DecidableEq

/-- A bucket as produced by `calloc`: all fields zero / NULL. -/
def emptyBucket : Bucket :=
  { next := none, key := none, ksize := 0, hash := 0, value := 0 }

/-- Translation of `struct hashmap` (src/map.c lines 29-44). `last = none` encodes
the trick `m->last = (struct bucket*)&m->first`: the pseudo-bucket whose `next`
field is `m->first`. In the non-removable build `tombstone_count` does not exist
in the C struct; here it simply stays 0. -/
structure Hashmap where
  buckets : List Bucket
  capacity : Nat
  count : Nat
  tombstone_count : Nat
  first : Option Nat
  last : Option Nat
deriving DecidableEq

/-- Array read `m->buckets[i]`. -/
def bget (bs : List Bucket) (i : Nat) : Bucket := bs.getD i emptyBucket

/-- Write to a bucket's `next` field. -/
def Bucket.setNext (b : Bucket) (v : Option Nat) : Bucket := { b with next := v }

/-- Translation of `hashmap_create` (src/map.c lines 46-64): capacity
`HASHMAP_DEFAULT_CAPACITY = 20`, zeroed buckets, empty order list. -/
def hashmap_create : Hashmap :=
  { buckets := List.replicate 20 emptyBucket, capacity := 20, count := 0,
    tombstone_count := 0, first := none, last := none }

/-- One iteration body of the default hash loop:
`hash ^= data[i]; hash *= 16777619;` with `uint32_t` wrap-around made explicit. -/
def hash_step (h b : Nat) : Nat := ((h ^^^ b) * 16777619) % 2 ^ 32

/-- Translation of the default (`__HASH_FUNCTION == 0`) `hash_data` loop
(src/map.c lines 132-143), recursing over the first `size` bytes. Note that the
source loop advances its index twice per iteration (`++i` in the for-header plus
`i++` in the body), so only the bytes at even indices are folded into the
digest: each step consumes the head byte and discards the following one. -/
def hash_core : List Nat → Nat → Nat
  | [], h => h
  | [b], h => hash_step h b
  | b :: _ :: rest, h => hash_core rest (hash_step h b)

/-- Translation of `hash_data` (src/map.c lines 132-143), `hash_data(key, ksize)`:
the loop reads the bytes at indices below `size`. -/
def hash_data (data : Key) (size : Nat) : Nat := hash_core (data.take size) 2166136261

/-- Modelled from the spec: the claimed default hash ("initialize to 2166136261;
for each byte, h ^= byte; h *= 16777619"), i.e. genuine FNV-1a over every byte of
the key, for comparison with the source's `hash_data`. -/
def fnv1a_spec (data : Key) : Nat :=
  data.foldl (fun h b => ((h ^^^ b) * 16777619) % 2 ^ 32) 2166136261

/-- One generic linear-probing loop: starting at `index`, step by
`(index + 1) % cap` until `stop` holds. The explicit fuel stands in for the
source's unbounded `for(;;)` loop (both probing loops in the source have this
shape); with `fuel = cap` the probe visits every slot once, and the source loops
forever exactly when the model returns `none`, which is unreachable under the
table's load invariant. -/
def probe_aux (cap : Nat) (stop : Nat → Bool) : Nat → Nat → Option Nat
  | 0, _ => none
  | fuel + 1, index =>
    if stop index then some index else probe_aux cap stop fuel ((index + 1) % cap)

/-- The match test of `find_entry`: sizes, then hashes, then byte content
(`memcmp(entry->key, key, ksize) == 0` compares the first `ksize` bytes of the
two keys). -/
def bucketMatches (b : Bucket) (key : Key) (ksize hash : Nat) : Bool :=
  match b.key with
  | none => false
  | some k =>
      decide (b.ksize = ksize) && decide (b.hash = hash) &&
      decide (k.take ksize = key.take ksize)

/-- The stopping condition of `find_entry`'s probe loop (src/map.c lines
249-279): with removal compiled in, stop on a true-empty slot (NULL key and zero
value) or on a match, skipping tombstones; without removal, stop on any NULL key
or on a match. -/
def isStop (rem : Bool) (b : Bucket) (key : Key) (ksize hash : Nat) : Bool :=
  if rem then (b.key.isNone && decide (b.value = 0)) || bucketMatches b key ksize hash
  else b.key.isNone || bucketMatches b key ksize hash

/-- Translation of `find_entry` (src/map.c lines 241-284), returning the index of
the slot the source returns a pointer to. -/
def find_entry (rem : Bool) (m : Hashmap) (key : Key) (ksize hash : Nat) : Option Nat :=
  probe_aux m.capacity (fun i => isStop rem (bget m.buckets i) key ksize hash)
    m.capacity (hash % m.capacity)

/-- Translation of the probe loop of `resize_entry` (src/map.c lines 73-88):
find the first NULL-key slot probing linearly from `old_entry->hash % capacity`. -/
def resize_entry (bs : List Bucket) (cap : Nat) (hash : Nat) : Option Nat :=
  probe_aux cap (fun i => (bget bs i).key.isNone) cap (hash % cap)

/-- The append-to-order-list step shared by the insert paths (src/map.c lines
293-297 and analogues) and the resize walk (lines 120-121):
`m->last->next = entry; m->last = entry; entry->next = NULL;` plus filling the
entry's fields. `lst = none` plays the role of `m->last == &m->first`, in which
case the link write lands on `first`. Returns (buckets, first, last). -/
def linkAppend (bs : List Bucket) (fst lst : Option Nat) (e : Nat) (nb : Bucket) :
    List Bucket × Option Nat × Option Nat :=
  match lst with
  | none => (bs.set e nb, some e, some e)
  | some l => ((bs.set l ((bget bs l).setNext (some e))).set e nb, fst, some e)

/-- Translation of the rebuild walk of `hashmap_resize` (src/map.c lines
107-122). `cur` is the value of `m->last->next`, which during the walk points
into the old bucket array (the copied `next` field of the last placed entry, or
the skip write of the tombstone branch); the walk ends at the old list's
terminal NULL, at which point the transient old-array pointer has been
overwritten, leaving exactly the re-threaded links this model builds with
`linkAppend`. The fuel stands in for termination of the do-while loop; the old
capacity always suffices. -/
def resize_loop (rem : Bool) (oldB : List Bucket) (cap2 : Nat) :
    Nat → Option Nat → List Bucket × Option Nat × Option Nat →
    List Bucket × Option Nat × Option Nat
  | 0, _, st => st
  | _fuel + 1, none, st => st
  | fuel + 1, some i, (newB, fst, lst) =>
    let ob := bget oldB i
    if rem && ob.key.isNone then
      resize_loop rem oldB cap2 fuel ob.next (newB, fst, lst)
    else
      match resize_entry newB cap2 ob.hash with
      | none => (newB, fst, lst)
      | some j => resize_loop rem oldB cap2 fuel ob.next
          (linkAppend newB fst lst j { ob with next := none })

/-- Translation of `hashmap_resize` (src/map.c lines 90-125): double the
capacity (`HASHMAP_RESIZE_FACTOR = 2`), allocate a fresh zeroed bucket array,
fold the tombstones out of `count` (removable build), then walk the old order
list re-homing the surviving entries. The source assumes a nonempty map (the
do-while would dereference NULL otherwise); the model returns the empty rebuilt
table in that unreachable case. -/
def hashmap_resize (rem : Bool) (m : Hashmap) : Hashmap :=
  let cap2 := m.capacity * 2
  let count2 := if rem then m.count - m.tombstone_count else m.count
  let st := resize_loop rem m.buckets cap2 m.capacity m.first
      (List.replicate cap2 emptyBucket, none, none)
  { buckets := st.1, capacity := cap2, count := count2, tombstone_count := 0,
    first := st.2.1, last := st.2.2 }

/-- The resize trigger `m->count + 1 > HASHMAP_MAX_LOAD * m->capacity` with
`HASHMAP_MAX_LOAD = 0.75f`. For every reachable capacity (20 * 2^j, far below
2^24) both `0.75f * capacity` and the comparison are computed exactly in float,
so the test equals the exact rational comparison, written here over naturals. -/
def needsResize (m : Hashmap) : Bool := decide (4 * (m.count + 1) > 3 * m.capacity)

/-- Translation of `hashmap_set` (src/map.c lines 286-306). The unreachable
`find_entry` non-termination case (no stop within `capacity` probes) is
modelled as returning the map unchanged. -/
def hashmap_set (rem : Bool) (m0 : Hashmap) (key : Key) (ksize : Nat) (val : Nat) :
    Hashmap :=
  let m := if needsResize m0 then hashmap_resize rem m0 else m0
  let hash := hash_data key ksize
  match find_entry rem m key ksize hash with
  | none => m
  | some e =>
    let b := bget m.buckets e
    if b.key.isNone then
      let st := linkAppend m.buckets m.first m.last e
        { next := none, key := some key, ksize := ksize, hash := hash, value := val }
      { m with buckets := st.1, first := st.2.1, last := st.2.2, count := m.count + 1 }
    else
      { m with buckets := m.buckets.set e { b with value := val } }

/-- Translation of `hashmap_get_set` (src/map.c lines 308-332); the result is
(map, (already-existed flag, final value of `*out_in`)). -/
def hashmap_get_set (rem : Bool) (m0 : Hashmap) (key : Key) (ksize : Nat)
    (out_in : Nat) : Hashmap × Bool × Nat :=
  let m := if needsResize m0 then hashmap_resize rem m0 else m0
  let hash := hash_data key ksize
  match find_entry rem m key ksize hash with
  | none => (m, false, out_in)
  | some e =>
    let b := bget m.buckets e
    if b.key.isNone then
      let st := linkAppend m.buckets m.first m.last e
        { next := none, key := some key, ksize := ksize, hash := hash, value := out_in }
      ({ m with buckets := st.1, first := st.2.1, last := st.2.2, count := m.count + 1 },
       false, out_in)
    else
      (m, true, b.value)

/-- One invocation of a `hashmap_callback`: the key pointer, key size and value
arguments the source passes to `c` (the user pointer carries no table state). -/
abbrev CbCall := Option Key × Nat × Nat

/-- Translation of `hashmap_set_free` (src/map.c lines 334-364); the second
component records the callback invocations in order. On the overwrite path the
source passes the query `ksize` (not `entry->ksize`) to the callback and then
replaces the stored key pointer and value. -/
def hashmap_set_free (rem : Bool) (m0 : Hashmap) (key : Key) (ksize : Nat)
    (val : Nat) : Hashmap × List CbCall :=
  let m := if needsResize m0 then hashmap_resize rem m0 else m0
  let hash := hash_data key ksize
  match find_entry rem m key ksize hash with
  | none => (m, [])
  | some e =>
    let b := bget m.buckets e
    if b.key.isNone then
      let st := linkAppend m.buckets m.first m.last e
        { next := none, key := some key, ksize := ksize, hash := hash, value := val }
      ({ m with buckets := st.1, first := st.2.1, last := st.2.2, count := m.count + 1 },
       [])
    else
      ({ m with buckets := m.buckets.set e { b with key := some key, value := val } },
       [(b.key, ksize, b.value)])

/-- Translation of `hashmap_get` (src/map.c lines 366-375): it writes nothing
into the table, so the map comes back unchanged as the first component; the
rest is (`entry->key != NULL`, `*out_val = entry->value`). -/
def hashmap_get (rem : Bool) (m : Hashmap) (key : Key) (ksize : Nat) :
    Hashmap × Bool × Nat :=
  let hash := hash_data key ksize
  match find_entry rem m key ksize hash with
  | none => (m, false, 0)
  | some e => (m, !(bget m.buckets e).key.isNone, (bget m.buckets e).value)

/-- Translation of `hashmap_remove` (src/map.c lines 380-395, removable build):
tombstone the matched slot (NULL key, value 0xDEAD), bump `tombstone_count`. -/
def hashmap_remove (m : Hashmap) (key : Key) (ksize : Nat) : Hashmap :=
  let hash := hash_data key ksize
  match find_entry true m key ksize hash with
  | none => m
  | some e =>
    let b := bget m.buckets e
    if b.key.isNone then m
    else
      { m with buckets := m.buckets.set e { b with key := none, value := 0xDEAD },
               tombstone_count := m.tombstone_count + 1 }

/-- Translation of `hashmap_remove_free` (src/map.c lines 397-413): like
`hashmap_remove` but first passes the outgoing entry (with the stored
`entry->ksize`) to the callback; the second component records the invocations. -/
def hashmap_remove_free (m : Hashmap) (key : Key) (ksize : Nat) :
    Hashmap × List CbCall :=
  let hash := hash_data key ksize
  match find_entry true m key ksize hash with
  | none => (m, [])
  | some e =>
    let b := bget m.buckets e
    if b.key.isNone then (m, [])
    else
      ({ m with buckets := m.buckets.set e { b with key := none, value := 0xDEAD },
                tombstone_count := m.tombstone_count + 1 },
       [(b.key, b.ksize, b.value)])

/-- Translation of `hashmap_size` (src/map.c lines 416-424); in reachable states
`count` dominates `tombstone_count`, so natural subtraction agrees with the C
int subtraction. -/
def hashmap_size (rem : Bool) (m : Hashmap) : Nat :=
  if rem then m.count - m.tombstone_count else m.count

/-- Translation of `hashmap_iterate` as defined in src/map.c lines 426-451,
including its `co > 1000` guard, which breaks out of the walk right after the
1002nd visited node. Returns the callback invocations in order. -/
def iterate_loop (rem : Bool) (bs : List Bucket) (cur : Option Nat) (co : Nat) :
    List CbCall :=
  match cur with
  | none => []
  | some i =>
    let b := bget bs i
    let call : List CbCall := if rem && b.key.isNone then [] else [(b.key, b.ksize, b.value)]
    if hco : co > 1000 then call
    else call ++ iterate_loop rem bs b.next (co + 1)
termination_by 1001 - co
decreasing_by omega

/-- Translation of `hashmap_iterate` from src/map.c (the variant with the
counter guard). -/
def hashmap_iterate (rem : Bool) (m : Hashmap) : List CbCall :=
  iterate_loop rem m.buckets m.first 0

/-- Translation of the `hashmap_iterate` variant of src/map.h lines 106-122 (no
counter guard); the fuel models termination of the while loop, which is finite
for every reachable table (any fuel at least the order-list length gives the
full walk). -/
def iterate_loop_h (rem : Bool) (bs : List Bucket) : Nat → Option Nat → List CbCall
  | 0, _ => []
  | _fuel + 1, none => []
  | fuel + 1, some i =>
    let b := bget bs i
    (if rem && b.key.isNone then [] else [(b.key, b.ksize, b.value)]) ++
      iterate_loop_h rem bs fuel b.next

/-- The src/map.h `hashmap_iterate`, with explicit fuel. -/
def hashmap_iterate_h (rem : Bool) (m : Hashmap) (fuel : Nat) : List CbCall :=
  iterate_loop_h rem m.buckets fuel m.first

/-! ## The abstract model: an insertion-ordered association list -/

/-- The keys of an abstract state, in insertion order. -/
def keysOf (A : List (Key × Nat)) : List Key := A.map Prod.fst

/-- Abstract insert/overwrite: overwrite in place if the key is present
(position preserved), else append at the end. -/
def absSet (A : List (Key × Nat)) (k : Key) (v : Nat) : List (Key × Nat) :=
  if k ∈ keysOf A then A.map (fun p => if p.1 = k then (p.1, v) else p)
  else A ++ [(k, v)]

/-- Abstract get-or-insert: leave the state alone if the key is present, else
append with the caller's value. -/
def absGetSet (A : List (Key × Nat)) (k : Key) (v : Nat) : List (Key × Nat) :=
  if k ∈ keysOf A then A else A ++ [(k, v)]

/-- Abstract removal: drop the key's entry, preserving the others' order. -/
def absRemove (A : List (Key × Nat)) (k : Key) : List (Key × Nat) :=
  A.filter (fun p => decide (p.1 ≠ k))

/-- Reachable states of one table, paired with the insertion-ordered abstract
state; `rem` is the build configuration, fixed for the table's lifetime. Keys
are passed with their exact length, the API's (pointer, length) convention. -/
inductive Reach : Bool → Hashmap → List (Key × Nat) → Prop where
  | create (rem : Bool) : Reach rem hashmap_create []
  | set {rem m A} (k : Key) (v : Nat) (h : Reach rem m A) :
      Reach rem (hashmap_set rem m k k.length v) (absSet A k v)
  | get_set {rem m A} (k : Key) (v : Nat) (h : Reach rem m A) :
      Reach rem (hashmap_get_set rem m k k.length v).1 (absGetSet A k v)
  | set_free {rem m A} (k : Key) (v : Nat) (h : Reach rem m A) :
      Reach rem (hashmap_set_free rem m k k.length v).1 (absSet A k v)
  | remove {m A} (k : Key) (h : Reach true m A) :
      Reach true (hashmap_remove m k k.length) (absRemove A k)
  | remove_free {m A} (k : Key) (h : Reach true m A) :
      Reach true (hashmap_remove_free m k k.length).1 (absRemove A k)

/-! ## The order list as a predicate, and the representation invariant -/

/-- The order list: `isChain bs cur l` says that following `next` pointers from
`cur` visits exactly the indices in `l` and ends at NULL. -/
def isChain (bs : List Bucket) : Option Nat → List Nat → Prop
  | cur, [] => cur = none
  | cur, i :: rest => cur = some i ∧ isChain bs (bget bs i).next rest

/-- The (key, value) pairs of the occupied slots among `l`, in order. -/
def chainLive (bs : List Bucket) (l : List Nat) : List (Key × Nat) :=
  l.filterMap (fun i => match (bget bs i).key with
    | none => none
    | some k => some (k, (bget bs i).value))

/-- Number of linear-probe steps from `hash % cap` to slot `i`. -/
def probeDist (cap hash i : Nat) : Nat := (i + cap - hash % cap) % cap

/-- The representation invariant tying a table to its abstract state `A`
through the order-list index sequence `is`. -/
structure Inv (rem : Bool) (m : Hashmap) (is : List Nat) (A : List (Key × Nat)) :
    Prop where
  blen : m.buckets.length = m.capacity
  cap_pow : ∃ j, m.capacity = 20 * 2 ^ j
  load : 4 * m.count ≤ 3 * m.capacity
  chain : isChain m.buckets m.first is
  nodup : is.Nodup
  mem_lt : ∀ i ∈ is, i < m.capacity
  last_eq : m.last = is.getLast?
  count_eq : m.count = is.length
  tomb_eq : m.tombstone_count =
    (is.filter (fun i => (bget m.buckets i).key.isNone)).length
  no_tombs : rem = false → ∀ i ∈ is, (bget m.buckets i).key ≠ none
  slot_occ : ∀ i ∈ is, ∀ k, (bget m.buckets i).key = some k →
      (bget m.buckets i).ksize = k.length ∧
      (bget m.buckets i).hash = hash_data k k.length
  slot_tomb : ∀ i ∈ is, (bget m.buckets i).key = none →
      (bget m.buckets i).value = 0xDEAD
  offchain : ∀ i < m.capacity, i ∉ is → bget m.buckets i = emptyBucket
  live_eq : chainLive m.buckets is = A
  keys_nodup : (keysOf A).Nodup
  probe_ok : ∀ i ∈ is, ∀ k, (bget m.buckets i).key = some k →
      ∀ t < probeDist m.capacity (hash_data k k.length) i,
        isStop rem
          (bget m.buckets ((hash_data k k.length % m.capacity + t) % m.capacity))
          k k.length (hash_data k k.length) = false

/-! ## Basic bucket-array lemmas -/

theorem bget_set_ne {bs : List Bucket} {j i : Nat} {x : Bucket} (h : j ≠ i) :
    bget (bs.set j x) i = bget bs i := by
  simp [bget, List.getD_eq_getElem?_getD, List.getElem?_set_ne h]

theorem bget_set_self {bs : List Bucket} {j : Nat} {x : Bucket} (h : j < bs.length) :
    bget (bs.set j x) j = x := by
  simp [bget, List.getD_eq_getElem?_getD, List.getElem?_set_eq_of_lt _ h]

theorem bget_replicate {n i : Nat} : bget (List.replicate n emptyBucket) i = emptyBucket := by
  simp only [bget, List.getD_eq_getElem?_getD, List.getElem?_replicate]
  split <;> rfl

/-- Reading after writing a bucket's `next` field: every other field at any index
is unchanged. -/
theorem bget_setNext_core (bs : List Bucket) (l : Nat) (v : Option Nat) (p : Nat) :
    (bget (bs.set l ((bget bs l).setNext v)) p).key = (bget bs p).key ∧
    (bget (bs.set l ((bget bs l).setNext v)) p).ksize = (bget bs p).ksize ∧
    (bget (bs.set l ((bget bs l).setNext v)) p).hash = (bget bs p).hash ∧
    (bget (bs.set l ((bget bs l).setNext v)) p).value = (bget bs p).value := by
  rcases eq_or_ne l p with rfl | hlp
  · by_cases hl : l < bs.length
    · rw [bget_set_self hl]; exact ⟨rfl, rfl, rfl, rfl⟩
    · rw [List.set_eq_of_length_le (by omega)]; exact ⟨rfl, rfl, rfl, rfl⟩
  · rw [bget_set_ne hlp]; exact ⟨rfl, rfl, rfl, rfl⟩

/-! ## Modular probe arithmetic -/

theorem probe_step (cap start t : Nat) :
    ((start + 1) % cap + t) % cap = (start + (t + 1)) % cap := by
  rw [Nat.mod_add_mod]
  congr 1
  omega

theorem mod_sub_arrive {cap s j : Nat} (hs : s < cap) (hj : j < cap) :
    (s + (j + cap - s) % cap) % cap = j := by
  rcases le_or_lt s j with h | h
  · have h1 : j + cap - s = (j - s) + cap := by omega
    rw [h1, Nat.add_mod_right, Nat.mod_eq_of_lt (show j - s < cap by omega),
      show s + (j - s) = j by omega, Nat.mod_eq_of_lt hj]
  · rw [Nat.mod_eq_of_lt (show j + cap - s < cap by omega),
      show s + (j + cap - s) = j + cap by omega, Nat.add_mod_right, Nat.mod_eq_of_lt hj]

theorem probeDist_lt {cap : Nat} (h i : Nat) (hc : 0 < cap) : probeDist cap h i < cap :=
  Nat.mod_lt _ hc

theorem probeDist_arrive {cap : Nat} (h : Nat) {i : Nat} (hc : 0 < cap) (hi : i < cap) :
    (h % cap + probeDist cap h i) % cap = i :=
  mod_sub_arrive (Nat.mod_lt _ hc) hi

theorem probeDist_of_probe {cap t : Nat} (h : Nat) (hc : 0 < cap) (ht : t < cap) :
    probeDist cap h ((h % cap + t) % cap) = t := by
  have hs : h % cap < cap := Nat.mod_lt _ hc
  unfold probeDist
  rcases Nat.lt_or_ge (h % cap + t) cap with hlt | hge
  · rw [Nat.mod_eq_of_lt hlt, show h % cap + t + cap - h % cap = t + cap by omega,
      Nat.add_mod_right, Nat.mod_eq_of_lt ht]
  · have h2 : (h % cap + t) % cap = h % cap + t - cap := by
      rw [Nat.mod_eq_sub_mod hge, Nat.mod_eq_of_lt (by omega)]
    rw [h2, show h % cap + t - cap + cap - h % cap = t by omega, Nat.mod_eq_of_lt ht]

/-! ## The generic probe loop -/

theorem probe_aux_some {cap : Nat} {s : Nat → Bool} (hc : 0 < cap) :
    ∀ (t₀ fuel start : Nat), start < cap → t₀ < fuel →
      s ((start + t₀) % cap) = true →
      (∀ t, t < t₀ → s ((start + t) % cap) = false) →
      probe_aux cap s fuel start = some ((start + t₀) % cap) := by
  intro t₀
  induction t₀ with
  | zero =>
    intro fuel start hs hf hstop _
    cases fuel with
    | zero => omega
    | succ f =>
      have h0 : (start + 0) % cap = start := by rw [Nat.add_zero, Nat.mod_eq_of_lt hs]
      rw [h0] at hstop ⊢
      simp [probe_aux, hstop]
  | succ u ih =>
    intro fuel start hs hf hstop hmin
    cases fuel with
    | zero => omega
    | succ f =>
      have h0 : s start = false := by
        have := hmin 0 (Nat.succ_pos u)
        rwa [Nat.add_zero, Nat.mod_eq_of_lt hs] at this
      simp only [probe_aux, h0, Bool.false_eq_true, if_false]
      have harr : ((start + 1) % cap + u) % cap = (start + (u + 1)) % cap := probe_step cap start u
      rw [← harr] at hstop ⊢
      exact ih f ((start + 1) % cap) (Nat.mod_lt _ hc) (by omega) hstop
        (fun t ht => by rw [probe_step]; exact hmin (t + 1) (by omega))

theorem probe_aux_found {cap : Nat} {s : Nat → Bool} (hc : 0 < cap) {start : Nat}
    (hs : start < cap) {tw : Nat} (htw : tw < cap) (hw : s ((start + tw) % cap) = true) :
    ∃ t₀, t₀ ≤ tw ∧ (∀ t, t < t₀ → s ((start + t) % cap) = false) ∧
      s ((start + t₀) % cap) = true ∧
      probe_aux cap s cap start = some ((start + t₀) % cap) := by
  have hex : ∃ t, s ((start + t) % cap) = true := ⟨tw, hw⟩
  have hmin : ∀ t, t < Nat.find hex → s ((start + t) % cap) = false := by
    intro t ht
    exact Bool.eq_false_iff.mpr (Nat.find_min hex ht)
  exact ⟨Nat.find hex, Nat.find_min' hex hw, hmin, Nat.find_spec hex,
    probe_aux_some hc _ cap start hs (by have := Nat.find_min' hex hw; omega)
      (Nat.find_spec hex) hmin⟩

/-! ## Pigeonhole: a table below capacity has a free slot -/

theorem exists_unused {is : List Nat} {cap : Nat} (hnd : is.Nodup)
    (hlt : ∀ i ∈ is, i < cap) (hlen : is.length < cap) : ∃ j, j < cap ∧ j ∉ is := by
  by_contra hcon
  push_neg at hcon
  have hsub : Finset.range cap ⊆ is.toFinset := by
    intro j hj
    rw [List.mem_toFinset]
    exact hcon j (Finset.mem_range.mp hj)
  have := Finset.card_le_card hsub
  rw [Finset.card_range, List.toFinset_card_of_nodup hnd] at this
  omega

/-! ## Order-list (chain) lemmas -/

theorem isChain_congr {bs bs' : List Bucket} {l : List Nat}
    (hnext : ∀ i ∈ l, (bget bs' i).next = (bget bs i).next) :
    ∀ {cur : Option Nat}, isChain bs cur l → isChain bs' cur l := by
  induction l with
  | nil => intro cur h; exact h
  | cons i rest ih =>
    intro cur h
    obtain ⟨h1, h2⟩ := h
    refine ⟨h1, ?_⟩
    rw [hnext i (List.mem_cons_self i rest)]
    exact ih (fun p hp => hnext p (List.mem_cons_of_mem _ hp)) h2

theorem isChain_snoc_aux {bs : List Bucket} {nb : Bucket} {e : Nat} (hnbn : nb.next = none)
    (helt : e < bs.length) :
    ∀ (l : List Nat) (cur : Option Nat) (la : Nat),
      isChain bs cur l → l.getLast? = some la → l.Nodup → e ∉ l →
      (∀ i ∈ l, i < bs.length) →
      isChain ((bs.set la ((bget bs la).setNext (some e))).set e nb) cur (l ++ [e]) := by
  intro l
  induction l with
  | nil => intro cur la _ hlast; simp at hlast
  | cons i rest ih =>
    intro cur la hch hlast hnd he hlt
    obtain ⟨h1, h2⟩ := hch
    have hie : i ≠ e := fun h => he (h ▸ List.mem_cons_self i rest)
    cases rest with
    | nil =>
      rw [List.getLast?_singleton] at hlast
      obtain rfl : i = la := by injection hlast
      refine ⟨h1, ?_⟩
      have hbi : bget ((bs.set i ((bget bs i).setNext (some e))).set e nb) i =
          (bget bs i).setNext (some e) := by
        rw [bget_set_ne hie.symm, bget_set_self (hlt i (List.mem_cons_self i []))]
      rw [hbi]
      refine ⟨rfl, ?_⟩
      rw [bget_set_self (by rw [List.length_set]; exact helt), hnbn]
      rfl
    | cons j rest2 =>
      rw [List.getLast?_cons_cons] at hlast
      have hla_mem : la ∈ j :: rest2 := by
        obtain ⟨hne, h⟩ := List.mem_getLast?_eq_getLast (l := j :: rest2) hlast
        exact h ▸ List.getLast_mem hne
      have hila : i ≠ la := by
        intro h
        exact (List.nodup_cons.mp hnd).1 (h ▸ hla_mem)
      refine ⟨h1, ?_⟩
      have hbi : bget ((bs.set la ((bget bs la).setNext (some e))).set e nb) i = bget bs i := by
        rw [bget_set_ne hie.symm, bget_set_ne (fun h => hila h.symm)]
      rw [hbi]
      exact ih (bget bs i).next la h2 hlast (List.nodup_cons.mp hnd).2
        (fun h => he (List.mem_cons_of_mem _ h))
        (fun p hp => hlt p (List.mem_cons_of_mem _ hp))

/-! ## linkAppend lemmas -/

theorem linkAppend_length {bs : List Bucket} {fst lst : Option Nat} {e : Nat} {nb : Bucket} :
    (linkAppend bs fst lst e nb).1.length = bs.length := by
  unfold linkAppend; cases lst <;> simp [List.length_set]

theorem linkAppend_last {bs : List Bucket} {fst lst : Option Nat} {e : Nat} {nb : Bucket} :
    (linkAppend bs fst lst e nb).2.2 = some e := by
  unfold linkAppend; cases lst <;> rfl

theorem linkAppend_bget_e {bs : List Bucket} {fst lst : Option Nat} {e : Nat} {nb : Bucket}
    (he : e < bs.length) : bget (linkAppend bs fst lst e nb).1 e = nb := by
  unfold linkAppend
  cases lst with
  | none => exact bget_set_self he
  | some l => exact bget_set_self (by rw [List.length_set]; exact he)

/-- At any index other than the fresh entry's, `linkAppend` can only have changed
the `next` field (of the old last element). -/
theorem linkAppend_core_ne {bs : List Bucket} {fst lst : Option Nat} {e : Nat} {nb : Bucket}
    {p : Nat} (hpe : p ≠ e) :
    (bget (linkAppend bs fst lst e nb).1 p).key = (bget bs p).key ∧
    (bget (linkAppend bs fst lst e nb).1 p).ksize = (bget bs p).ksize ∧
    (bget (linkAppend bs fst lst e nb).1 p).hash = (bget bs p).hash ∧
    (bget (linkAppend bs fst lst e nb).1 p).value = (bget bs p).value := by
  unfold linkAppend
  cases lst with
  | none => rw [bget_set_ne (Ne.symm hpe)]; exact ⟨rfl, rfl, rfl, rfl⟩
  | some l =>
    simp only
    rw [bget_set_ne (Ne.symm hpe)]
    exact bget_setNext_core bs l (some e) p

theorem linkAppend_bget_out {bs : List Bucket} {fst lst : Option Nat} {e : Nat} {nb : Bucket}
    {p : Nat} (hpe : p ≠ e) (hpl : ∀ l, lst = some l → p ≠ l) :
    bget (linkAppend bs fst lst e nb).1 p = bget bs p := by
  unfold linkAppend
  cases lst with
  | none => exact bget_set_ne (Ne.symm hpe)
  | some l =>
    simp only
    rw [bget_set_ne (Ne.symm hpe), bget_set_ne (fun h => hpl l rfl h.symm)]

/-- The chain-extension fact for every insert path: appending a fresh entry `e`
to the order list via `linkAppend` extends the chain by exactly `[e]`. -/
theorem isChain_linkAppend {bs : List Bucket} {fst lst : Option Nat} {l : List Nat}
    {e : Nat} {nb : Bucket} (hch : isChain bs fst l) (hlast : lst = l.getLast?)
    (hnd : l.Nodup) (he : e ∉ l) (helt : e < bs.length) (hnbn : nb.next = none)
    (hlt : ∀ i ∈ l, i < bs.length) :
    isChain (linkAppend bs fst lst e nb).1 (linkAppend bs fst lst e nb).2.1 (l ++ [e]) := by
  cases l with
  | nil =>
    have : lst = none := by rw [hlast]; rfl
    subst this
    unfold linkAppend
    refine ⟨rfl, ?_⟩
    rw [bget_set_self helt, hnbn]
    rfl
  | cons i rest =>
    have hla : (i :: rest).getLast? = some ((i :: rest).getLast (by simp)) :=
      List.getLast?_eq_getLast _ _
    have hlst : lst = some ((i :: rest).getLast (by simp)) := by rw [hlast, hla]
    subst hlst
    unfold linkAppend
    simp only
    exact isChain_snoc_aux hnbn helt (i :: rest) fst _ hch hla hnd he hlt

/-! ## chainLive lemmas -/

theorem chainLive_nil {bs : List Bucket} : chainLive bs [] = [] := rfl

theorem chainLive_cons_occ {bs : List Bucket} {i : Nat} {l : List Nat} {k : Key}
    (h : (bget bs i).key = some k) :
    chainLive bs (i :: l) = (k, (bget bs i).value) :: chainLive bs l := by
  simp [chainLive, List.filterMap_cons, h]

theorem chainLive_cons_tomb {bs : List Bucket} {i : Nat} {l : List Nat}
    (h : (bget bs i).key = none) :
    chainLive bs (i :: l) = chainLive bs l := by
  simp [chainLive, List.filterMap_cons, h]

theorem chainLive_append (bs : List Bucket) (l₁ l₂ : List Nat) :
    chainLive bs (l₁ ++ l₂) = chainLive bs l₁ ++ chainLive bs l₂ :=
  List.filterMap_append _ _ _

theorem chainLive_congr {bs bs' : List Bucket} {l : List Nat}
    (h : ∀ i ∈ l,
      (bget bs' i).key = (bget bs i).key ∧ (bget bs' i).value = (bget bs i).value) :
    chainLive bs' l = chainLive bs l := by
  unfold chainLive
  apply List.filterMap_congr
  intro i hi
  rw [(h i hi).1, (h i hi).2]

theorem chainLive_mem {bs : List Bucket} {l : List Nat} {p : Key × Nat}
    (h : p ∈ chainLive bs l) :
    ∃ i ∈ l, (bget bs i).key = some p.1 ∧ (bget bs i).value = p.2 := by
  obtain ⟨k, v⟩ := p
  unfold chainLive at h
  obtain ⟨i, hi, hf⟩ := List.mem_filterMap.mp h
  refine ⟨i, hi, ?_⟩
  cases hk : (bget bs i).key with
  | none => rw [hk] at hf; simp at hf
  | some k' =>
    rw [hk] at hf
    simp only [Option.some.injEq, Prod.mk.injEq] at hf
    obtain ⟨hf1, hf2⟩ := hf
    subst hf1
    exact ⟨rfl, hf2⟩

theorem mem_chainLive {bs : List Bucket} {l : List Nat} {i : Nat} {k : Key}
    (hi : i ∈ l) (hk : (bget bs i).key = some k) :
    (k, (bget bs i).value) ∈ chainLive bs l := by
  unfold chainLive
  apply List.mem_filterMap.mpr
  exact ⟨i, hi, by rw [hk]⟩

theorem chainLive_length_occ {bs : List Bucket} {l : List Nat}
    (h : ∀ i ∈ l, (bget bs i).key ≠ none) : (chainLive bs l).length = l.length := by
  induction l with
  | nil => rfl
  | cons i rest ih =>
    cases hk : (bget bs i).key with
    | none => exact absurd hk (h i (List.mem_cons_self _ _))
    | some k =>
      rw [chainLive_cons_occ hk, List.length_cons, List.length_cons,
        ih (fun p hp => h p (List.mem_cons_of_mem _ hp))]

/-! ## Stop-condition lemmas -/

theorem isStop_empty (rem : Bool) (key : Key) (ksize hash : Nat) :
    isStop rem emptyBucket key ksize hash = true := by
  cases rem <;> rfl

theorem isStop_occ {rem : Bool} {b : Bucket} {k' : Key} (hb : b.key = some k')
    {key : Key} {ksize hash : Nat} :
    isStop rem b key ksize hash = bucketMatches b key ksize hash := by
  unfold isStop
  rw [hb]
  cases rem <;> simp

theorem isStop_tombstone {b : Bucket} {key : Key} {ksize hash : Nat}
    (hb : b.key = none) (hv : b.value ≠ 0) :
    isStop true b key ksize hash = false := by
  unfold isStop bucketMatches
  rw [hb]
  simp [hv]

theorem bucketMatches_self {b : Bucket} {k : Key} (hb : b.key = some k)
    (hks : b.ksize = k.length) {hash : Nat} (hh : b.hash = hash) :
    bucketMatches b k k.length hash = true := by
  unfold bucketMatches
  rw [hb]
  simp [hks, hh]

theorem bucketMatches_ne {b : Bucket} {k' k : Key} (hb : b.key = some k')
    (hks : b.ksize = k'.length) (hne : k' ≠ k) (hash : Nat) :
    bucketMatches b k k.length hash = false := by
  unfold bucketMatches
  rw [hb]
  by_cases hlen : k'.length = k.length
  · have hta : k'.take k.length ≠ k := by
      rw [← hlen, List.take_length]
      exact hne
    simp [hta]
  · simp [hks, hlen]

theorem isStop_congr {rem : Bool} {b b' : Bucket} (key : Key) (ksize hash : Nat)
    (hk : b'.key = b.key) (hks : b'.ksize = b.ksize) (hh : b'.hash = b.hash)
    (hv : b'.value = b.value) :
    isStop rem b' key ksize hash = isStop rem b key ksize hash := by
  unfold isStop bucketMatches
  rw [hk, hks, hh, hv]

/-! ## Consequences of the invariant -/

theorem Inv.cap_pos {rem : Bool} {m : Hashmap} {is : List Nat} {A : List (Key × Nat)}
    (h : Inv rem m is A) : 0 < m.capacity := by
  obtain ⟨j, hj⟩ := h.cap_pow
  rw [hj]
  positivity

theorem Inv.cap_ge {rem : Bool} {m : Hashmap} {is : List Nat} {A : List (Key × Nat)}
    (h : Inv rem m is A) : 20 ≤ m.capacity := by
  obtain ⟨j, hj⟩ := h.cap_pow
  have h2 : 1 ≤ 2 ^ j := Nat.one_le_two_pow
  have := Nat.mul_le_mul_left 20 h2
  omega

theorem Inv.len_lt_cap {rem : Bool} {m : Hashmap} {is : List Nat} {A : List (Key × Nat)}
    (h : Inv rem m is A) : is.length < m.capacity := by
  have h1 := h.load
  have h2 := h.count_eq
  have h3 := h.cap_pos
  omega

theorem Inv.slot_of_mem {rem : Bool} {m : Hashmap} {is : List Nat} {A : List (Key × Nat)}
    (hInv : Inv rem m is A) {k : Key} {v : Nat} (hmem : (k, v) ∈ A) :
    ∃ i ∈ is, (bget m.buckets i).key = some k ∧ (bget m.buckets i).value = v := by
  rw [← hInv.live_eq] at hmem
  exact chainLive_mem hmem

theorem mem_keysOf {A : List (Key × Nat)} {k : Key} : k ∈ keysOf A ↔ ∃ v, (k, v) ∈ A := by
  unfold keysOf
  constructor
  · intro h
    obtain ⟨⟨k', v⟩, hm, hk⟩ := List.mem_map.mp h
    exact ⟨v, by rwa [show k' = k from hk] at hm⟩
  · rintro ⟨v, hm⟩
    exact List.mem_map.mpr ⟨(k, v), hm, rfl⟩

/-! ## The two outcomes of find_entry under the invariant -/

/-- Looking up a key present in the table finds exactly its occupied slot. -/
theorem find_entry_present {rem : Bool} {m : Hashmap} {is : List Nat}
    {A : List (Key × Nat)} (hInv : Inv rem m is A) {k : Key} {v : Nat}
    (hmem : (k, v) ∈ A) :
    ∃ i, i ∈ is ∧ (bget m.buckets i).key = some k ∧ (bget m.buckets i).value = v ∧
      find_entry rem m k k.length (hash_data k k.length) = some i := by
  obtain ⟨i, hi, hk, hv⟩ := hInv.slot_of_mem hmem
  have hcap : 0 < m.capacity := hInv.cap_pos
  have hilt : i < m.capacity := hInv.mem_lt i hi
  set h := hash_data k k.length with hh
  have harr : (h % m.capacity + probeDist m.capacity h i) % m.capacity = i :=
    probeDist_arrive h hcap hilt
  have hocc := hInv.slot_occ i hi k hk
  have hstop : isStop rem (bget m.buckets i) k k.length h = true := by
    rw [isStop_occ hk]
    exact bucketMatches_self hk hocc.1 hocc.2
  refine ⟨i, hi, hk, hv, ?_⟩
  unfold find_entry
  have hfind := probe_aux_some (s := fun p => isStop rem (bget m.buckets p) k k.length h)
    hcap (probeDist m.capacity h i) m.capacity (h % m.capacity) (Nat.mod_lt _ hcap)
    (probeDist_lt h i hcap) (by rw [harr]; exact hstop)
    (fun t ht => hInv.probe_ok i hi k hk t ht)
  rw [hfind, harr]

/-- Looking up an absent key stops at a true-empty slot outside the chain, with
every earlier probed slot not a stop. -/
theorem find_entry_absent {rem : Bool} {m : Hashmap} {is : List Nat}
    {A : List (Key × Nat)} (hInv : Inv rem m is A) {k : Key}
    (habs : k ∉ keysOf A) :
    ∃ e t₀, e < m.capacity ∧ e ∉ is ∧ bget m.buckets e = emptyBucket ∧
      e = (hash_data k k.length % m.capacity + t₀) % m.capacity ∧ t₀ < m.capacity ∧
      (∀ t, t < t₀ →
        isStop rem (bget m.buckets ((hash_data k k.length % m.capacity + t) % m.capacity))
          k k.length (hash_data k k.length) = false) ∧
      find_entry rem m k k.length (hash_data k k.length) = some e := by
  have hcap : 0 < m.capacity := hInv.cap_pos
  set h := hash_data k k.length with hh
  obtain ⟨j, hj, hjn⟩ := exists_unused hInv.nodup hInv.mem_lt hInv.len_lt_cap
  have hjempty : bget m.buckets j = emptyBucket := hInv.offchain j hj hjn
  have hstopj : isStop rem
      (bget m.buckets ((h % m.capacity + probeDist m.capacity h j) % m.capacity))
      k k.length h = true := by
    rw [probeDist_arrive h hcap hj, hjempty]
    exact isStop_empty rem k k.length h
  obtain ⟨t₀, htle, hmin, hstop, hfind⟩ := probe_aux_found
    (s := fun p => isStop rem (bget m.buckets p) k k.length h) hcap
    (Nat.mod_lt _ hcap) (probeDist_lt h j hcap) hstopj
  set e := (h % m.capacity + t₀) % m.capacity with he
  have helt : e < m.capacity := Nat.mod_lt _ hcap
  have hken : (bget m.buckets e).key = none := by
    cases hk : (bget m.buckets e).key with
    | none => rfl
    | some k' =>
      exfalso
      have hein : e ∈ is := by
        by_contra hni
        rw [hInv.offchain e helt hni] at hk
        simp [emptyBucket] at hk
      have hocc := hInv.slot_occ e hein k' hk
      rw [isStop_occ hk] at hstop
      unfold bucketMatches at hstop
      rw [hk] at hstop
      simp only [Bool.and_eq_true, decide_eq_true_eq] at hstop
      obtain ⟨⟨hks, hhs⟩, htake⟩ := hstop
      have hklen : k'.length = k.length := by rw [← hocc.1]; exact hks
      have hkeq : k' = k := by
        have h1 : k'.take k.length = k' := by rw [← hklen, List.take_length]
        have h2 : k.take k.length = k := List.take_length k
        rw [h1, h2] at htake
        exact htake
      subst hkeq
      exact habs (mem_keysOf.mpr ⟨(bget m.buckets e).value,
        by rw [← hInv.live_eq]; exact mem_chainLive hein hk⟩)
  have hnein : e ∉ is := by
    intro hein
    cases hrem : rem with
    | false => exact hInv.no_tombs hrem e hein hken
    | true =>
      have hv := hInv.slot_tomb e hein hken
      have hf : isStop true (bget m.buckets e) k k.length h = false :=
        isStop_tombstone hken (by rw [hv]; norm_num)
      rw [hrem] at hstop
      rw [hf] at hstop
      simp at hstop
  exact ⟨e, t₀, helt, hnein, hInv.offchain e helt hnein, rfl,
    lt_of_le_of_lt htle (probeDist_lt h j hcap), hmin, hfind⟩

/-! ## Small helpers for the preservation proofs -/

theorem mem_of_getLast?_eq {α : Type} {l : List α} {a : α} (h : l.getLast? = some a) :
    a ∈ l := by
  obtain ⟨hne, heq⟩ := List.mem_getLast?_eq_getLast (Option.mem_def.mpr h)
  exact heq ▸ List.getLast_mem hne

theorem keysOf_append (A B : List (Key × Nat)) : keysOf (A ++ B) = keysOf A ++ keysOf B :=
  List.map_append _ _ _

theorem absSet_map_id {L : List (Key × Nat)} {k : Key} (v : Nat) (h : k ∉ keysOf L) :
    L.map (fun p => if p.1 = k then (p.1, v) else p) = L := by
  induction L with
  | nil => rfl
  | cons p rest ih =>
    have hk : k ∉ keysOf rest := fun hm => h (List.mem_cons_of_mem _ hm)
    have hp : p.1 ≠ k := fun he => h (he ▸ List.mem_cons_self _ _)
    simp only [List.map_cons, if_neg hp, ih hk]

theorem keysOf_absSet {A : List (Key × Nat)} {k : Key} (v : Nat) (hk : k ∈ keysOf A) :
    keysOf (absSet A k v) = keysOf A := by
  unfold absSet
  rw [if_pos hk]
  unfold keysOf
  rw [List.map_map]
  apply List.map_congr_left
  intro p _
  by_cases hp : p.1 = k <;> simp [hp]

theorem isStop_occ_value {rem : Bool} {b b' : Bucket} (key : Key) (ksize hash : Nat)
    {k' : Key} (hk : b.key = some k') (hk' : b'.key = b.key) (hks : b'.ksize = b.ksize)
    (hh : b'.hash = b.hash) :
    isStop rem b' key ksize hash = isStop rem b key ksize hash := by
  rw [isStop_occ (hk' ▸ hk), isStop_occ hk]
  unfold bucketMatches
  rw [hk', hks, hh]

/-! ## Invariant preservation: fresh insert -/

/-- Inserting an absent key at the true-empty slot `find_entry` returns preserves
the invariant, appending the entry to the chain and to the abstract state. -/
theorem inv_fresh_insert {rem : Bool} {m : Hashmap} {is : List Nat}
    {A : List (Key × Nat)} (hInv : Inv rem m is A) {k : Key} (habs : k ∉ keysOf A)
    {v : Nat} (hload : 4 * (m.count + 1) ≤ 3 * m.capacity)
    {e t₀ : Nat} (helt : e < m.capacity) (hnein : e ∉ is)
    (hee : e = (hash_data k k.length % m.capacity + t₀) % m.capacity)
    (ht₀ : t₀ < m.capacity)
    (hmin : ∀ t, t < t₀ →
      isStop rem (bget m.buckets ((hash_data k k.length % m.capacity + t) % m.capacity))
        k k.length (hash_data k k.length) = false)
    {st : List Bucket × Option Nat × Option Nat}
    (hst : st = linkAppend m.buckets m.first m.last e
      { next := none, key := some k, ksize := k.length, hash := hash_data k k.length, value := v }) :
    Inv rem { m with buckets := st.1, first := st.2.1, last := st.2.2,
                     count := m.count + 1 } (is ++ [e]) (A ++ [(k, v)]) := by
  have hcap : 0 < m.capacity := hInv.cap_pos
  have helt' : e < m.buckets.length := by rw [hInv.blen]; exact helt
  have hmemlt : ∀ i ∈ is, i < m.buckets.length := by
    intro i hi; rw [hInv.blen]; exact hInv.mem_lt i hi
  have hnee : ∀ i ∈ is, i ≠ e := fun i hi hie => hnein (hie ▸ hi)
  have hbe : bget st.1 e =
      { next := none, key := some k, ksize := k.length, hash := hash_data k k.length, value := v } := by
    rw [hst]; exact linkAppend_bget_e helt'
  have hcore : ∀ p, p ≠ e →
      (bget st.1 p).key = (bget m.buckets p).key ∧
      (bget st.1 p).ksize = (bget m.buckets p).ksize ∧
      (bget st.1 p).hash = (bget m.buckets p).hash ∧
      (bget st.1 p).value = (bget m.buckets p).value := by
    intro p hp; rw [hst]; exact linkAppend_core_ne hp
  have hempty_e : bget m.buckets e = emptyBucket := hInv.offchain e helt hnein
  refine { blen := ?_, cap_pow := ?_, load := ?_, chain := ?_, nodup := ?_,
           mem_lt := ?_, last_eq := ?_, count_eq := ?_, tomb_eq := ?_, no_tombs := ?_,
           slot_occ := ?_, slot_tomb := ?_, offchain := ?_, live_eq := ?_,
           keys_nodup := ?_, probe_ok := ?_ }
  · show st.1.length = m.capacity
    rw [hst, linkAppend_length]; exact hInv.blen
  · exact hInv.cap_pow
  · show 4 * (m.count + 1) ≤ 3 * m.capacity
    exact hload
  · show isChain st.1 st.2.1 (is ++ [e])
    rw [hst]
    exact isChain_linkAppend hInv.chain hInv.last_eq hInv.nodup hnein helt' rfl hmemlt
  · rw [List.nodup_append]
    exact ⟨hInv.nodup, List.nodup_singleton e,
      fun a ha hae => hnein ((List.mem_singleton.mp hae) ▸ ha)⟩
  · intro i hi
    rcases List.mem_append.mp hi with h | h
    · exact hInv.mem_lt i h
    · rw [List.mem_singleton.mp h]; exact helt
  · show st.2.2 = (is ++ [e]).getLast?
    rw [hst, linkAppend_last, List.getLast?_concat]
  · show m.count + 1 = (is ++ [e]).length
    rw [List.length_append, List.length_singleton, hInv.count_eq]
  · show m.tombstone_count = ((is ++ [e]).filter fun i => (bget st.1 i).key.isNone).length
    have hfe : ((bget st.1 e).key.isNone : Bool) = false := by rw [hbe]; rfl
    rw [List.filter_append,
      List.filter_congr (fun i hi => by rw [(hcore i (hnee i hi)).1]),
      show List.filter (fun i => (bget st.1 i).key.isNone) [e] = [] by
        simp [List.filter_cons, hfe],
      List.append_nil]
    exact hInv.tomb_eq
  · intro hrem i hi
    rcases List.mem_append.mp hi with h | h
    · rw [(hcore i (hnee i h)).1]; exact hInv.no_tombs hrem i h
    · rw [List.mem_singleton.mp h, hbe]; simp
  · intro i hi k0 hk0
    rcases List.mem_append.mp hi with h | h
    · rw [(hcore i (hnee i h)).1] at hk0
      rw [(hcore i (hnee i h)).2.1, (hcore i (hnee i h)).2.2.1]
      exact hInv.slot_occ i h k0 hk0
    · rw [List.mem_singleton.mp h] at hk0 ⊢
      rw [hbe] at hk0 ⊢
      obtain rfl : k = k0 := by injection hk0
      exact ⟨rfl, rfl⟩
  · intro i hi hk0
    rcases List.mem_append.mp hi with h | h
    · rw [(hcore i (hnee i h)).1] at hk0
      rw [(hcore i (hnee i h)).2.2.2]
      exact hInv.slot_tomb i h hk0
    · rw [List.mem_singleton.mp h, hbe] at hk0
      simp at hk0
  · intro i hilt hni
    have hi1 : i ∉ is := fun h => hni (List.mem_append.mpr (Or.inl h))
    have hi2 : i ≠ e := fun h => hni (List.mem_append.mpr (Or.inr (h ▸ List.mem_singleton_self i)))
    have : bget st.1 i = bget m.buckets i := by
      rw [hst]
      refine linkAppend_bget_out hi2 ?_
      intro l hl
      have hlm : l ∈ is := mem_of_getLast?_eq (hInv.last_eq ▸ hl)
      exact fun h => hi1 (h ▸ hlm)
    rw [this]
    exact hInv.offchain i hilt hi1
  · show chainLive st.1 (is ++ [e]) = A ++ [(k, v)]
    rw [chainLive_append,
      chainLive_congr (fun i hi => ⟨(hcore i (hnee i hi)).1, (hcore i (hnee i hi)).2.2.2⟩),
      hInv.live_eq,
      chainLive_cons_occ (show (bget st.1 e).key = some k by rw [hbe])]
    rw [hbe]
    rfl
  · rw [keysOf_append]
    rw [List.nodup_append]
    refine ⟨hInv.keys_nodup, List.nodup_singleton k, ?_⟩
    intro a ha hae
    rw [show keysOf [(k, v)] = [k] from rfl, List.mem_singleton] at hae
    exact habs (hae ▸ ha)
  · intro i hi k0 hk0 t ht
    show isStop rem
      (bget st.1 ((hash_data k0 k0.length % m.capacity + t) % m.capacity))
      k0 k0.length (hash_data k0 k0.length) = false
    rcases List.mem_append.mp hi with h | h
    · -- an old entry: its probe path cannot pass the previously empty slot e
      have hk0' : (bget m.buckets i).key = some k0 := by
        rw [← (hcore i (hnee i h)).1]; exact hk0
      have hold := hInv.probe_ok i h k0 hk0' t ht
      set idx := (hash_data k0 k0.length % m.capacity + t) % m.capacity with hidx
      have hne : idx ≠ e := by
        intro hie
        rw [hie, hempty_e, isStop_empty] at hold
        exact Bool.noConfusion hold
      rw [← hold]
      exact isStop_congr k0 k0.length (hash_data k0 k0.length)
        (hcore idx hne).1 (hcore idx hne).2.1 (hcore idx hne).2.2.1 (hcore idx hne).2.2.2
    · -- the fresh entry: the probe stopped at the first stop
      have hie : i = e := List.mem_singleton.mp h
      have hk0' : (bget st.1 e).key = some k0 := by rw [← hie]; exact hk0
      rw [hbe] at hk0'
      have hk0e : k0 = k := by injection hk0' with h'; exact h'.symm
      rw [hk0e]
      have ht' : t < t₀ := by
        have h1 : t < probeDist m.capacity (hash_data k k.length) e := by
          rw [← hie, ← hk0e]; exact ht
        rwa [hee, probeDist_of_probe _ hcap ht₀] at h1
      have hold := hmin t ht'
      set idx := (hash_data k k.length % m.capacity + t) % m.capacity with hidx
      have hne : idx ≠ e := by
        intro hieq
        rw [hieq, hempty_e, isStop_empty] at hold
        exact Bool.noConfusion hold
      rw [← hold]
      exact isStop_congr k k.length (hash_data k k.length)
        (hcore idx hne).1 (hcore idx hne).2.1 (hcore idx hne).2.2.1 (hcore idx hne).2.2.2

/-! ## Invariant preservation: overwrite of an existing key -/

/-- Overwriting the value of an existing key's slot preserves the invariant, the
chain, and maps the abstract state through `absSet`. -/
theorem inv_overwrite {rem : Bool} {m : Hashmap} {is : List Nat} {A : List (Key × Nat)}
    (hInv : Inv rem m is A) {k : Key} {v : Nat} {i : Nat}
    (hi : i ∈ is) (hk : (bget m.buckets i).key = some k) :
    Inv rem { m with buckets := m.buckets.set i { bget m.buckets i with value := v } }
      is (absSet A k v) := by
  have hilt : i < m.buckets.length := by rw [hInv.blen]; exact hInv.mem_lt i hi
  have hkin : k ∈ keysOf A := mem_keysOf.mpr
    ⟨(bget m.buckets i).value, by rw [← hInv.live_eq]; exact mem_chainLive hi hk⟩
  set bs2 := m.buckets.set i { bget m.buckets i with value := v } with hbs2
  have hb2i : bget bs2 i = { bget m.buckets i with value := v } := bget_set_self hilt
  have hother : ∀ p, p ≠ i → bget bs2 p = bget m.buckets p :=
    fun p hp => bget_set_ne (fun h => hp h.symm)
  have hcore : ∀ p, (bget bs2 p).key = (bget m.buckets p).key ∧
      (bget bs2 p).ksize = (bget m.buckets p).ksize ∧
      (bget bs2 p).hash = (bget m.buckets p).hash := by
    intro p
    rcases eq_or_ne p i with rfl | hpi
    · rw [hb2i]; exact ⟨rfl, rfl, rfl⟩
    · rw [hother p hpi]; exact ⟨rfl, rfl, rfl⟩
  obtain ⟨is₁, is₂, hsplit⟩ := List.append_of_mem hi
  have hnd := hInv.nodup
  rw [hsplit, List.nodup_append] at hnd
  obtain ⟨hnd₁, hnd₂, hdisj⟩ := hnd
  have hi_n1 : i ∉ is₁ := fun h => hdisj h (List.mem_cons_self _ _)
  have hi_n2 : i ∉ is₂ := (List.nodup_cons.mp hnd₂).1
  have hA : A = chainLive m.buckets is₁ ++
      (k, (bget m.buckets i).value) :: chainLive m.buckets is₂ := by
    rw [← hInv.live_eq, hsplit, chainLive_append, chainLive_cons_occ hk]
  have hknds := hInv.keys_nodup
  rw [hA, keysOf_append,
    show keysOf ((k, (bget m.buckets i).value) :: chainLive m.buckets is₂) =
      k :: keysOf (chainLive m.buckets is₂) from rfl,
    List.nodup_append] at hknds
  obtain ⟨hknd₁, hkndc, hkdisj⟩ := hknds
  have hk_n1 : k ∉ keysOf (chainLive m.buckets is₁) :=
    fun h => hkdisj h (List.mem_cons_self _ _)
  have hk_n2 : k ∉ keysOf (chainLive m.buckets is₂) := (List.nodup_cons.mp hkndc).1
  refine { blen := ?_, cap_pow := ?_, load := ?_, chain := ?_, nodup := ?_,
           mem_lt := ?_, last_eq := ?_, count_eq := ?_, tomb_eq := ?_, no_tombs := ?_,
           slot_occ := ?_, slot_tomb := ?_, offchain := ?_, live_eq := ?_,
           keys_nodup := ?_, probe_ok := ?_ }
  · show bs2.length = m.capacity
    rw [hbs2, List.length_set]; exact hInv.blen
  · exact hInv.cap_pow
  · exact hInv.load
  · show isChain bs2 m.first is
    refine isChain_congr ?_ hInv.chain
    intro p _
    rcases eq_or_ne p i with rfl | hpi
    · rw [hb2i]
    · rw [hother p hpi]
  · exact hInv.nodup
  · exact hInv.mem_lt
  · exact hInv.last_eq
  · exact hInv.count_eq
  · show m.tombstone_count = (is.filter fun p => (bget bs2 p).key.isNone).length
    rw [List.filter_congr (fun p _ => by rw [(hcore p).1])]
    exact hInv.tomb_eq
  · intro hrem p hp
    rw [(hcore p).1]
    exact hInv.no_tombs hrem p hp
  · intro p hp k0 hk0
    rw [(hcore p).1] at hk0
    rw [(hcore p).2.1, (hcore p).2.2]
    exact hInv.slot_occ p hp k0 hk0
  · intro p hp hk0
    rw [(hcore p).1] at hk0
    rcases eq_or_ne p i with rfl | hpi
    · rw [hk] at hk0; exact Option.noConfusion hk0
    · rw [hother p hpi]
      exact hInv.slot_tomb p hp hk0
  · intro p hplt hpn
    have hpi : p ≠ i := fun h => hpn (h ▸ hi)
    rw [hother p hpi]
    exact hInv.offchain p hplt hpn
  · show chainLive bs2 is = absSet A k v
    have hl₁ : chainLive bs2 is₁ = chainLive m.buckets is₁ :=
      chainLive_congr (fun p hp => by
        rw [hother p (fun h => hi_n1 (h ▸ hp))]; exact ⟨rfl, rfl⟩)
    have hl₂ : chainLive bs2 is₂ = chainLive m.buckets is₂ :=
      chainLive_congr (fun p hp => by
        rw [hother p (fun h => hi_n2 (h ▸ hp))]; exact ⟨rfl, rfl⟩)
    rw [hsplit, chainLive_append,
      chainLive_cons_occ (show (bget bs2 i).key = some k by rw [hb2i]; exact hk),
      show (bget bs2 i).value = v by rw [hb2i], hl₁, hl₂]
    unfold absSet
    rw [if_pos hkin, hA, List.map_append, List.map_cons,
      absSet_map_id v hk_n1, absSet_map_id v hk_n2]
    simp
  · rw [keysOf_absSet v hkin]
    exact hInv.keys_nodup
  · intro p hp k0 hk0 t ht
    show isStop rem (bget bs2 ((hash_data k0 k0.length % m.capacity + t) % m.capacity))
        k0 k0.length (hash_data k0 k0.length) = false
    have hk0' : (bget bs2 p).key = some k0 := hk0
    rw [(hcore p).1] at hk0'
    have ht' : t < probeDist m.capacity (hash_data k0 k0.length) p := ht
    have hold := hInv.probe_ok p hp k0 hk0' t ht'
    set idx := (hash_data k0 k0.length % m.capacity + t) % m.capacity with hidx
    rcases eq_or_ne idx i with hii | hii
    · rw [hii, hb2i]
      rw [hii] at hold
      rw [← hold]
      exact isStop_occ_value k0 k0.length (hash_data k0 k0.length) hk rfl rfl rfl
    · rw [hother idx hii]
      exact hold

/-! ## Invariant preservation: removal -/

theorem filter_ne_of_not_mem {L : List (Key × Nat)} {k : Key} (h : k ∉ keysOf L) :
    L.filter (fun p => decide (p.1 ≠ k)) = L := by
  induction L with
  | nil => rfl
  | cons p rest ih =>
    have hp : p.1 ≠ k := fun he => h (he ▸ List.mem_cons_self _ _)
    have hr : k ∉ keysOf rest := fun hm => h (List.mem_cons_of_mem _ hm)
    rw [List.filter_cons, if_pos (decide_eq_true hp), ih hr]

theorem keysOf_absRemove_nodup {A : List (Key × Nat)} (h : (keysOf A).Nodup) (k : Key) :
    (keysOf (absRemove A k)).Nodup := by
  unfold absRemove keysOf
  exact ((List.filter_sublist A).map Prod.fst).nodup h

/-- Tombstoning the slot of an existing key preserves the invariant with the same
chain; the abstract state drops the key. -/
theorem inv_remove_at {m : Hashmap} {is : List Nat} {A : List (Key × Nat)}
    (hInv : Inv true m is A) {k : Key} {i : Nat}
    (hi : i ∈ is) (hk : (bget m.buckets i).key = some k) :
    Inv true
      { m with
        buckets := m.buckets.set i { bget m.buckets i with key := none, value := 0xDEAD },
        tombstone_count := m.tombstone_count + 1 }
      is (absRemove A k) := by
  have hilt : i < m.buckets.length := by rw [hInv.blen]; exact hInv.mem_lt i hi
  set bs2 := m.buckets.set i { bget m.buckets i with key := none, value := 0xDEAD } with hbs2
  have hb2i : bget bs2 i = { bget m.buckets i with key := none, value := 0xDEAD } :=
    bget_set_self hilt
  have hother : ∀ p, p ≠ i → bget bs2 p = bget m.buckets p :=
    fun p hp => bget_set_ne (fun h => hp h.symm)
  obtain ⟨is₁, is₂, hsplit⟩ := List.append_of_mem hi
  have hnd := hInv.nodup
  rw [hsplit, List.nodup_append] at hnd
  obtain ⟨hnd₁, hnd₂, hdisj⟩ := hnd
  have hi_n1 : i ∉ is₁ := fun h => hdisj h (List.mem_cons_self _ _)
  have hi_n2 : i ∉ is₂ := (List.nodup_cons.mp hnd₂).1
  have hA : A = chainLive m.buckets is₁ ++
      (k, (bget m.buckets i).value) :: chainLive m.buckets is₂ := by
    rw [← hInv.live_eq, hsplit, chainLive_append, chainLive_cons_occ hk]
  have hknds := hInv.keys_nodup
  rw [hA, keysOf_append,
    show keysOf ((k, (bget m.buckets i).value) :: chainLive m.buckets is₂) =
      k :: keysOf (chainLive m.buckets is₂) from rfl,
    List.nodup_append] at hknds
  obtain ⟨hknd₁, hkndc, hkdisj⟩ := hknds
  have hk_n1 : k ∉ keysOf (chainLive m.buckets is₁) :=
    fun h => hkdisj h (List.mem_cons_self _ _)
  have hk_n2 : k ∉ keysOf (chainLive m.buckets is₂) := (List.nodup_cons.mp hkndc).1
  refine { blen := ?_, cap_pow := ?_, load := ?_, chain := ?_, nodup := ?_,
           mem_lt := ?_, last_eq := ?_, count_eq := ?_, tomb_eq := ?_, no_tombs := ?_,
           slot_occ := ?_, slot_tomb := ?_, offchain := ?_, live_eq := ?_,
           keys_nodup := ?_, probe_ok := ?_ }
  · show bs2.length = m.capacity
    rw [hbs2, List.length_set]; exact hInv.blen
  · exact hInv.cap_pow
  · exact hInv.load
  · show isChain bs2 m.first is
    refine isChain_congr ?_ hInv.chain
    intro p _
    rcases eq_or_ne p i with rfl | hpi
    · rw [hb2i]
    · rw [hother p hpi]
  · exact hInv.nodup
  · exact hInv.mem_lt
  · exact hInv.last_eq
  · exact hInv.count_eq
  · show m.tombstone_count + 1 = (is.filter fun p => (bget bs2 p).key.isNone).length
    have hcongr1 : ∀ p ∈ is₁, ((bget bs2 p).key.isNone : Bool) =
        ((bget m.buckets p).key.isNone : Bool) := by
      intro p hp
      rw [hother p (fun h => hi_n1 (h ▸ hp))]
    have hcongr2 : ∀ p ∈ is₂, ((bget bs2 p).key.isNone : Bool) =
        ((bget m.buckets p).key.isNone : Bool) := by
      intro p hp
      rw [hother p (fun h => hi_n2 (h ▸ hp))]
    have hto := hInv.tomb_eq
    rw [hsplit] at hto ⊢
    rw [List.filter_append, List.filter_cons] at hto ⊢
    rw [List.filter_congr hcongr1, List.filter_congr hcongr2]
    have hnew : ((bget bs2 i).key.isNone : Bool) = true := by rw [hb2i]; rfl
    have hold : ((bget m.buckets i).key.isNone : Bool) = false := by rw [hk]; rfl
    rw [hnew, if_pos rfl]
    rw [hold, if_neg Bool.false_ne_true] at hto
    simp only [List.length_append, List.length_cons] at hto ⊢
    omega
  · intro hrem
    exact absurd hrem (by simp)
  · intro p hp k0 hk0
    rcases eq_or_ne p i with rfl | hpi
    · rw [hb2i] at hk0; exact Option.noConfusion hk0
    · rw [hother p hpi] at hk0 ⊢
      exact hInv.slot_occ p hp k0 hk0
  · intro p hp hk0
    rcases eq_or_ne p i with rfl | hpi
    · rw [hb2i]
    · rw [hother p hpi] at hk0 ⊢
      exact hInv.slot_tomb p hp hk0
  · intro p hplt hpn
    have hpi : p ≠ i := fun h => hpn (h ▸ hi)
    rw [hother p hpi]
    exact hInv.offchain p hplt hpn
  · show chainLive bs2 is = absRemove A k
    have hl₁ : chainLive bs2 is₁ = chainLive m.buckets is₁ :=
      chainLive_congr (fun p hp => by
        rw [hother p (fun h => hi_n1 (h ▸ hp))]; exact ⟨rfl, rfl⟩)
    have hl₂ : chainLive bs2 is₂ = chainLive m.buckets is₂ :=
      chainLive_congr (fun p hp => by
        rw [hother p (fun h => hi_n2 (h ▸ hp))]; exact ⟨rfl, rfl⟩)
    rw [hsplit, chainLive_append,
      chainLive_cons_tomb (show (bget bs2 i).key = none by rw [hb2i]), hl₁, hl₂]
    unfold absRemove
    rw [hA, List.filter_append, List.filter_cons]
    rw [show (decide ¬(k, (bget m.buckets i).value).1 = k : Bool) = false by simp]
    rw [if_neg (by simp)]
    rw [filter_ne_of_not_mem hk_n1, filter_ne_of_not_mem hk_n2]
  · exact keysOf_absRemove_nodup hInv.keys_nodup k
  · intro p hp k0 hk0 t ht
    show isStop true (bget bs2 ((hash_data k0 k0.length % m.capacity + t) % m.capacity))
        k0 k0.length (hash_data k0 k0.length) = false
    have hk0' : (bget bs2 p).key = some k0 := hk0
    have hpi : p ≠ i := by
      intro h
      rw [h, hb2i] at hk0'
      exact Option.noConfusion hk0'
    rw [hother p hpi] at hk0'
    have ht' : t < probeDist m.capacity (hash_data k0 k0.length) p := ht
    have hold := hInv.probe_ok p hp k0 hk0' t ht'
    set idx := (hash_data k0 k0.length % m.capacity + t) % m.capacity with hidx
    rcases eq_or_ne idx i with hii | hii
    · rw [hii, hb2i]
      exact isStop_tombstone rfl (by norm_num)
    · rw [hother idx hii]
      exact hold

/-! ## Invariant preservation: resize -/

/-- The running state of the resize walk: the part of the table already rebuilt. -/
structure RS (rem : Bool) (cap2 : Nat) (newB : List Bucket) (fst lst : Option Nat)
    (ps : List Nat) (L : List (Key × Nat)) : Prop where
  blen : newB.length = cap2
  chain : isChain newB fst ps
  nodup : ps.Nodup
  mem_lt : ∀ p ∈ ps, p < cap2
  last_eq : lst = ps.getLast?
  occ : ∀ p ∈ ps, (bget newB p).key ≠ none
  slot_occ : ∀ p ∈ ps, ∀ k, (bget newB p).key = some k →
      (bget newB p).ksize = k.length ∧ (bget newB p).hash = hash_data k k.length
  offps : ∀ p < cap2, p ∉ ps → bget newB p = emptyBucket
  live_eq : chainLive newB ps = L
  probe_ok : ∀ p ∈ ps, ∀ k, (bget newB p).key = some k →
      ∀ t < probeDist cap2 (hash_data k k.length) p,
        isStop rem (bget newB ((hash_data k k.length % cap2 + t) % cap2)) k k.length
          (hash_data k k.length) = false

/-- One placement step of the resize walk: `resize_entry` finds a free slot for a
surviving entry and linking it preserves the walk state. -/
theorem rs_place {rem : Bool} {cap2 : Nat} {newB : List Bucket} {fst lst : Option Nat}
    {ps : List Nat} {L : List (Key × Nat)} (hRS : RS rem cap2 newB fst lst ps L)
    {k : Key} {ob : Bucket} (hobk : ob.key = some k)
    (hks : ob.ksize = k.length) (hh : ob.hash = hash_data k k.length)
    (habs : k ∉ keysOf L) (hroom : L.length < cap2) :
    ∃ j, resize_entry newB cap2 ob.hash = some j ∧ j < cap2 ∧ j ∉ ps ∧
      RS rem cap2 (linkAppend newB fst lst j { ob with next := none }).1
        (linkAppend newB fst lst j { ob with next := none }).2.1
        (linkAppend newB fst lst j { ob with next := none }).2.2
        (ps ++ [j]) (L ++ [(k, ob.value)]) := by
  have hcap : 0 < cap2 := by omega
  have hlenps : ps.length = L.length := by
    rw [← hRS.live_eq]
    exact (chainLive_length_occ hRS.occ).symm
  obtain ⟨w, hw, hwn⟩ := exists_unused hRS.nodup hRS.mem_lt (by omega)
  have hwempty : bget newB w = emptyBucket := hRS.offps w hw hwn
  have hstart : ob.hash % cap2 < cap2 := Nat.mod_lt _ hcap
  have hstopw : ((bget newB ((ob.hash % cap2 + probeDist cap2 ob.hash w) % cap2)).key.isNone
      : Bool) = true := by
    rw [probeDist_arrive ob.hash hcap hw, hwempty]; rfl
  obtain ⟨t₀, htle, hmin, hstop, hfind⟩ := probe_aux_found
    (s := fun p => (bget newB p).key.isNone) hcap hstart
    (probeDist_lt ob.hash w hcap) hstopw
  set j := (ob.hash % cap2 + t₀) % cap2 with hj
  have hjlt : j < cap2 := Nat.mod_lt _ hcap
  have hjkey : (bget newB j).key = none := Option.isNone_iff_eq_none.mp hstop
  have hjn : j ∉ ps := fun hmem => hRS.occ j hmem hjkey
  have ht₀lt : t₀ < cap2 := lt_of_le_of_lt htle (probeDist_lt ob.hash w hcap)
  have hjlen : j < newB.length := by rw [hRS.blen]; exact hjlt
  have hmemlen : ∀ p ∈ ps, p < newB.length := by
    intro p hp; rw [hRS.blen]; exact hRS.mem_lt p hp
  have hnee : ∀ p ∈ ps, p ≠ j := fun p hp hpj => hjn (hpj ▸ hp)
  set st := linkAppend newB fst lst j { ob with next := none } with hst
  have hbj : bget st.1 j = { ob with next := none } := by
    rw [hst]; exact linkAppend_bget_e hjlen
  have hbjk : (bget st.1 j).key = some k := by rw [hbj]; exact hobk
  have hcore : ∀ p, p ≠ j → (bget st.1 p).key = (bget newB p).key ∧
      (bget st.1 p).ksize = (bget newB p).ksize ∧
      (bget st.1 p).hash = (bget newB p).hash ∧
      (bget st.1 p).value = (bget newB p).value := by
    intro p hp; rw [hst]; exact linkAppend_core_ne hp
  refine ⟨j, by unfold resize_entry; exact hfind, hjlt, hjn, ?_⟩
  rw [← hst]
  refine { blen := ?_, chain := ?_, nodup := ?_, mem_lt := ?_, last_eq := ?_,
           occ := ?_, slot_occ := ?_, offps := ?_, live_eq := ?_, probe_ok := ?_ }
  · rw [hst, linkAppend_length]; exact hRS.blen
  · rw [hst]
    exact isChain_linkAppend hRS.chain hRS.last_eq hRS.nodup hjn hjlen rfl hmemlen
  · rw [List.nodup_append]
    exact ⟨hRS.nodup, List.nodup_singleton j,
      fun a ha hae => hjn ((List.mem_singleton.mp hae) ▸ ha)⟩
  · intro p hp
    rcases List.mem_append.mp hp with h | h
    · exact hRS.mem_lt p h
    · rw [List.mem_singleton.mp h]; exact hjlt
  · rw [hst, linkAppend_last, List.getLast?_concat]
  · intro p hp
    rcases List.mem_append.mp hp with h | h
    · rw [(hcore p (hnee p h)).1]; exact hRS.occ p h
    · rw [List.mem_singleton.mp h, hbj]
      rw [show ({ ob with next := none } : Bucket).key = ob.key from rfl, hobk]
      simp
  · intro p hp k0 hk0
    rcases List.mem_append.mp hp with h | h
    · rw [(hcore p (hnee p h)).1] at hk0
      rw [(hcore p (hnee p h)).2.1, (hcore p (hnee p h)).2.2.1]
      exact hRS.slot_occ p h k0 hk0
    · rw [List.mem_singleton.mp h] at hk0 ⊢
      rw [hbjk] at hk0
      obtain rfl : k = k0 := by injection hk0
      rw [hbj]
      exact ⟨hks, hh⟩
  · intro p hplt hpn
    have hp1 : p ∉ ps := fun h => hpn (List.mem_append.mpr (Or.inl h))
    have hp2 : p ≠ j :=
      fun h => hpn (List.mem_append.mpr (Or.inr (h ▸ List.mem_singleton_self p)))
    have heq : bget st.1 p = bget newB p := by
      rw [hst]
      refine linkAppend_bget_out hp2 ?_
      intro l hl
      have hlm : l ∈ ps := mem_of_getLast?_eq (hRS.last_eq ▸ hl)
      exact fun h => hp1 (h ▸ hlm)
    rw [heq]
    exact hRS.offps p hplt hp1
  · rw [chainLive_append,
      chainLive_congr (fun p hp => ⟨(hcore p (hnee p hp)).1, (hcore p (hnee p hp)).2.2.2⟩),
      hRS.live_eq, chainLive_cons_occ hbjk, hbj]
    rfl
  · intro p hp k0 hk0 t ht
    rcases List.mem_append.mp hp with h | h
    · have hk0' : (bget newB p).key = some k0 := by
        rw [← (hcore p (hnee p h)).1]; exact hk0
      have hold := hRS.probe_ok p h k0 hk0' t ht
      set idx := (hash_data k0 k0.length % cap2 + t) % cap2 with hidx
      have hne : idx ≠ j := by
        intro hie
        rw [hie, hRS.offps j hjlt hjn, isStop_empty] at hold
        exact Bool.noConfusion hold
      rw [← hold]
      exact isStop_congr k0 k0.length (hash_data k0 k0.length)
        (hcore idx hne).1 (hcore idx hne).2.1 (hcore idx hne).2.2.1 (hcore idx hne).2.2.2
    · -- the freshly placed entry
      have hpj : p = j := List.mem_singleton.mp h
      have hk0' : (bget st.1 j).key = some k0 := by rw [← hpj]; exact hk0
      rw [hbjk] at hk0'
      have hk0e : k0 = k := by injection hk0' with h'; exact h'.symm
      rw [hk0e]
      have ht' : t < t₀ := by
        have h1 : t < probeDist cap2 (hash_data k k.length) j := by
          rw [← hpj, ← hk0e]; exact ht
        rw [hj, ← hh] at h1
        rwa [probeDist_of_probe _ hcap ht₀lt] at h1
      have hminT := hmin t ht'
      set idx := (hash_data k k.length % cap2 + t) % cap2 with hidx
      have hidx2 : idx = (ob.hash % cap2 + t) % cap2 := by rw [hidx, hh]
      have hknotnone : ¬((bget newB idx).key.isNone = true) := by
        rw [hidx2]
        intro hcon
        rw [hminT] at hcon
        exact Bool.noConfusion hcon
      have hne : idx ≠ j := by
        intro hie
        exact hknotnone (by rw [hie, hjkey]; rfl)
      obtain ⟨k', hk'⟩ : ∃ k', (bget newB idx).key = some k' := by
        cases hkc : (bget newB idx).key with
        | none => exact absurd (by rw [hkc]; rfl) hknotnone
        | some k' => exact ⟨k', rfl⟩
      have hidxlt : idx < cap2 := Nat.mod_lt _ hcap
      have hidxps : idx ∈ ps := by
        by_contra hcon
        rw [hRS.offps idx hidxlt hcon] at hk'
        exact Option.noConfusion hk'
      have hk'ne : k' ≠ k := by
        intro hcon
        refine habs ?_
        rw [← hRS.live_eq]
        exact mem_keysOf.mpr ⟨(bget newB idx).value,
          mem_chainLive hidxps (hcon ▸ hk')⟩
      have hstopfalse : isStop rem (bget newB idx) k k.length (hash_data k k.length)
          = false := by
        rw [isStop_occ hk']
        exact bucketMatches_ne hk' (hRS.slot_occ idx hidxps k' hk').1 hk'ne _
      rw [← hstopfalse]
      exact isStop_congr k k.length (hash_data k k.length)
        (hcore idx hne).1 (hcore idx hne).2.1 (hcore idx hne).2.2.1 (hcore idx hne).2.2.2

theorem chainLive_length_add_tombs (bs : List Bucket) (l : List Nat) :
    (chainLive bs l).length + (l.filter (fun i => (bget bs i).key.isNone)).length
      = l.length := by
  induction l with
  | nil => rfl
  | cons i rest ih =>
    cases hk : (bget bs i).key with
    | none =>
      rw [chainLive_cons_tomb hk, List.filter_cons, if_pos (by rw [hk]; rfl)]
      simp only [List.length_cons]
      omega
    | some k =>
      rw [chainLive_cons_occ hk, List.filter_cons, if_neg (by rw [hk]; simp)]
      simp only [List.length_cons]
      omega

/-- The resize walk: processing the remaining old chain extends the rebuilt state
by exactly the surviving entries, in their old order. -/
theorem resize_loop_spec {rem : Bool} {oldB : List Bucket} {cap2 : Nat} :
    ∀ (rest : List Nat) (fuel : Nat) (cur : Option Nat) (newB : List Bucket)
      (fst lst : Option Nat) (ps : List Nat) (L : List (Key × Nat)),
      isChain oldB cur rest →
      rest.length ≤ fuel →
      (∀ i ∈ rest, ∀ k, (bget oldB i).key = some k →
        (bget oldB i).ksize = k.length ∧ (bget oldB i).hash = hash_data k k.length) →
      (rem = false → ∀ i ∈ rest, (bget oldB i).key ≠ none) →
      RS rem cap2 newB fst lst ps L →
      (keysOf (L ++ chainLive oldB rest)).Nodup →
      (L ++ chainLive oldB rest).length < cap2 →
      ∃ ps2,
        RS rem cap2 (resize_loop rem oldB cap2 fuel cur (newB, fst, lst)).1
          (resize_loop rem oldB cap2 fuel cur (newB, fst, lst)).2.1
          (resize_loop rem oldB cap2 fuel cur (newB, fst, lst)).2.2
          (ps ++ ps2) (L ++ chainLive oldB rest) := by
  intro rest
  induction rest with
  | nil =>
    intro fuel cur newB fst lst ps L hch hfuel hwf hnt hRS hnd hbound
    have hcur : cur = none := hch
    subst hcur
    have hres : resize_loop rem oldB cap2 fuel none (newB, fst, lst) = (newB, fst, lst) := by
      cases fuel <;> rfl
    rw [hres]
    refine ⟨[], ?_⟩
    rw [List.append_nil, chainLive_nil, List.append_nil]
    exact hRS
  | cons i rest ih =>
    intro fuel cur newB fst lst ps L hch hfuel hwf hnt hRS hnd hbound
    obtain ⟨hcur, hch'⟩ := hch
    subst hcur
    cases fuel with
    | zero => simp at hfuel
    | succ f =>
      have hfuel' : rest.length ≤ f := by
        rw [List.length_cons] at hfuel; omega
      have hwf' : ∀ p ∈ rest, ∀ k, (bget oldB p).key = some k →
          (bget oldB p).ksize = k.length ∧ (bget oldB p).hash = hash_data k k.length :=
        fun p hp => hwf p (List.mem_cons_of_mem _ hp)
      have hnt' : rem = false → ∀ p ∈ rest, (bget oldB p).key ≠ none :=
        fun hr p hp => hnt hr p (List.mem_cons_of_mem _ hp)
      by_cases htomb : rem = true ∧ (bget oldB i).key = none
      · -- tombstone: skipped by the walk and absent from chainLive
        obtain ⟨hrem, hkey⟩ := htomb
        have hcond : (rem && (bget oldB i).key.isNone) = true := by
          rw [hrem, hkey]; rfl
        have hres : resize_loop rem oldB cap2 (f + 1) (some i) (newB, fst, lst) =
            resize_loop rem oldB cap2 f (bget oldB i).next (newB, fst, lst) := by
          simp only [resize_loop]
          rw [hcond]
          rw [if_pos rfl]
        rw [hres]
        have hlive : chainLive oldB (i :: rest) = chainLive oldB rest :=
          chainLive_cons_tomb hkey
        rw [hlive] at hnd hbound ⊢
        exact ih f (bget oldB i).next newB fst lst ps L hch' hfuel' hwf' hnt' hRS hnd hbound
      · -- survivor: place it and continue
        obtain ⟨k, hkc⟩ : ∃ k, (bget oldB i).key = some k := by
          cases hkc : (bget oldB i).key with
          | some k => exact ⟨k, rfl⟩
          | none =>
            cases hrem : rem with
            | true => exact absurd ⟨hrem, hkc⟩ htomb
            | false => exact absurd hkc (hnt hrem i (List.mem_cons_self _ _))
        have hcond : (rem && (bget oldB i).key.isNone) = false := by
          rw [hkc]; simp
        have hwfi := hwf i (List.mem_cons_self _ _) k hkc
        have hlive : chainLive oldB (i :: rest) =
            (k, (bget oldB i).value) :: chainLive oldB rest := chainLive_cons_occ hkc
        rw [hlive] at hnd hbound ⊢
        have hkabs : k ∉ keysOf L := by
          rw [keysOf_append, List.nodup_append] at hnd
          intro hmem
          exact hnd.2.2 hmem (List.mem_cons_self _ _)
        have hroom : L.length < cap2 := by
          rw [List.length_append, List.length_cons] at hbound; omega
        obtain ⟨j, hfind, hjlt, hjn, hRS'⟩ := rs_place hRS hkc hwfi.1 hwfi.2 hkabs hroom
        have hres : resize_loop rem oldB cap2 (f + 1) (some i) (newB, fst, lst) =
            resize_loop rem oldB cap2 f (bget oldB i).next
              (linkAppend newB fst lst j { bget oldB i with next := none }) := by
          simp only [resize_loop]
          rw [hcond]
          rw [if_neg Bool.false_ne_true, hfind]
        rw [hres]
        set st2 := linkAppend newB fst lst j { bget oldB i with next := none } with hst2
        have hnd2 : (keysOf ((L ++ [(k, (bget oldB i).value)]) ++ chainLive oldB rest)).Nodup := by
          rw [List.append_assoc]
          exact hnd
        have hbound2 : ((L ++ [(k, (bget oldB i).value)]) ++ chainLive oldB rest).length < cap2 := by
          rw [List.append_assoc]
          simp only [List.length_append, List.length_cons, List.length_nil] at hbound ⊢
          omega
        obtain ⟨ps2, hRS2⟩ := ih f (bget oldB i).next st2.1 st2.2.1 st2.2.2
          (ps ++ [j]) (L ++ [(k, (bget oldB i).value)]) hch' hfuel' hwf' hnt' hRS' hnd2 hbound2
        refine ⟨[j] ++ ps2, ?_⟩
        rw [show ps ++ ([j] ++ ps2) = (ps ++ [j]) ++ ps2 from (List.append_assoc _ _ _).symm,
          show L ++ (k, (bget oldB i).value) :: chainLive oldB rest =
            (L ++ [(k, (bget oldB i).value)]) ++ chainLive oldB rest from by
              rw [List.append_assoc]; rfl]
        exact hRS2

/-- Resizing a table preserves the invariant with the same abstract state, doubles
the capacity, reclaims every tombstone, and preserves the live order. -/
theorem inv_resize {rem : Bool} {m : Hashmap} {is : List Nat} {A : List (Key × Nat)}
    (hInv : Inv rem m is A) :
    ∃ is2, Inv rem (hashmap_resize rem m) is2 A ∧
      (hashmap_resize rem m).capacity = 2 * m.capacity ∧
      (hashmap_resize rem m).count = A.length ∧
      (∀ i ∈ is2, (bget (hashmap_resize rem m).buckets i).key ≠ none) ∧
      (hashmap_resize rem m).tombstone_count = 0 ∧
      chainLive (hashmap_resize rem m).buckets is2 = A ∧
      isChain (hashmap_resize rem m).buckets (hashmap_resize rem m).first is2 := by
  have hcap : 0 < m.capacity := hInv.cap_pos
  have hRS0 : RS rem (m.capacity * 2) (List.replicate (m.capacity * 2) emptyBucket)
      none none [] [] := by
    refine { blen := List.length_replicate _ _, chain := rfl, nodup := List.nodup_nil,
             mem_lt := ?_, last_eq := rfl, occ := ?_, slot_occ := ?_,
             offps := ?_, live_eq := rfl, probe_ok := ?_ }
    · intro p hp; simp at hp
    · intro p hp; simp at hp
    · intro p hp; simp at hp
    · intro p _ _; exact bget_replicate
    · intro p hp; simp at hp
  have hAlen : A.length ≤ is.length := by
    rw [← hInv.live_eq]
    exact List.length_filterMap_le _ _
  have hnd0 : (keysOf ([] ++ chainLive m.buckets is)).Nodup := by
    rw [List.nil_append, hInv.live_eq]
    exact hInv.keys_nodup
  have hbound0 : (([] : List (Key × Nat)) ++ chainLive m.buckets is).length
      < m.capacity * 2 := by
    rw [List.nil_append, hInv.live_eq]
    have := hInv.len_lt_cap
    omega
  obtain ⟨ps2, hRS⟩ := resize_loop_spec is m.capacity m.first
    (List.replicate (m.capacity * 2) emptyBucket) none none [] []
    hInv.chain (le_of_lt hInv.len_lt_cap) hInv.slot_occ hInv.no_tombs hRS0 hnd0 hbound0
  rw [List.nil_append, List.nil_append, hInv.live_eq] at hRS
  have hcount : (if rem then m.count - m.tombstone_count else m.count) = A.length := by
    have hpart := chainLive_length_add_tombs m.buckets is
    rw [hInv.live_eq] at hpart
    cases rem with
    | false =>
      show m.count = A.length
      have hnof : (is.filter fun i => (bget m.buckets i).key.isNone) = [] := by
        rw [List.eq_nil_iff_forall_not_mem]
        intro x hx
        obtain ⟨hx1, hx2⟩ := List.mem_filter.mp hx
        exact hInv.no_tombs rfl x hx1 (Option.isNone_iff_eq_none.mp hx2)
      rw [hnof] at hpart
      simp only [List.length_nil] at hpart
      have hce := hInv.count_eq
      omega
    | true =>
      show m.count - m.tombstone_count = A.length
      have hte := hInv.tomb_eq
      have hce := hInv.count_eq
      omega
  refine ⟨ps2, ?_, ?_, ?_, ?_, ?_, ?_, ?_⟩
  · refine { blen := ?_, cap_pow := ?_, load := ?_, chain := ?_, nodup := ?_,
             mem_lt := ?_, last_eq := ?_, count_eq := ?_, tomb_eq := ?_, no_tombs := ?_,
             slot_occ := ?_, slot_tomb := ?_, offchain := ?_, live_eq := ?_,
             keys_nodup := ?_, probe_ok := ?_ }
    · exact hRS.blen
    · obtain ⟨jj, hjj⟩ := hInv.cap_pow
      refine ⟨jj + 1, ?_⟩
      show m.capacity * 2 = 20 * 2 ^ (jj + 1)
      rw [hjj, pow_succ]
      ring
    · show 4 * (if rem then m.count - m.tombstone_count else m.count) ≤ 3 * (m.capacity * 2)
      rw [hcount]
      have h1 := hInv.load
      have h2 := hInv.count_eq
      omega
    · exact hRS.chain
    · exact hRS.nodup
    · exact hRS.mem_lt
    · exact hRS.last_eq
    · show (if rem then m.count - m.tombstone_count else m.count) = ps2.length
      rw [hcount, ← hRS.live_eq, chainLive_length_occ hRS.occ]
    · show 0 = (ps2.filter fun i =>
        (bget (resize_loop rem m.buckets (m.capacity * 2) m.capacity m.first
          (List.replicate (m.capacity * 2) emptyBucket, none, none)).1 i).key.isNone).length
      rw [show (ps2.filter fun i =>
        (bget (resize_loop rem m.buckets (m.capacity * 2) m.capacity m.first
          (List.replicate (m.capacity * 2) emptyBucket, none, none)).1 i).key.isNone) = [] from by
          rw [List.eq_nil_iff_forall_not_mem]
          intro x hx
          obtain ⟨hx1, hx2⟩ := List.mem_filter.mp hx
          exact hRS.occ x hx1 (Option.isNone_iff_eq_none.mp hx2)]
      rfl
    · intro _ p hp
      exact hRS.occ p hp
    · exact hRS.slot_occ
    · intro p hp hk0
      exact absurd hk0 (hRS.occ p hp)
    · exact hRS.offps
    · exact hRS.live_eq
    · exact hInv.keys_nodup
    · exact hRS.probe_ok
  · show m.capacity * 2 = 2 * m.capacity
    ring
  · exact hcount
  · exact hRS.occ
  · rfl
  · exact hRS.live_eq
  · exact hRS.chain

/-! ## Operation-level specifications -/

theorem inv_create (rem : Bool) : Inv rem hashmap_create [] [] := by
  refine { blen := by decide, cap_pow := ⟨0, by decide⟩,
           load := by decide, chain := rfl, nodup := List.nodup_nil,
           mem_lt := ?_, last_eq := rfl, count_eq := rfl, tomb_eq := rfl,
           no_tombs := ?_, slot_occ := ?_, slot_tomb := ?_, offchain := ?_,
           live_eq := rfl, keys_nodup := List.nodup_nil, probe_ok := ?_ }
  · intro i hi; simp at hi
  · intro _ i hi; simp at hi
  · intro i hi; simp at hi
  · intro i hi; simp at hi
  · intro i _ hni
    exact bget_replicate
  · intro i hi; simp at hi

theorem hashmap_get_frame (rem : Bool) (m : Hashmap) (key : Key) (ksize : Nat) :
    (hashmap_get rem m key ksize).1 = m := by
  simp only [hashmap_get]
  cases h : find_entry rem m key ksize (hash_data key ksize) with
  | none => rfl
  | some e => rfl

theorem hashmap_get_present {rem : Bool} {m : Hashmap} {is : List Nat}
    {A : List (Key × Nat)} (hInv : Inv rem m is A) {k : Key} {v : Nat}
    (hmem : (k, v) ∈ A) :
    hashmap_get rem m k k.length = (m, true, v) := by
  obtain ⟨i, hi, hk, hv, hfind⟩ := find_entry_present hInv hmem
  simp only [hashmap_get, hfind, hk, hv]
  rfl

theorem hashmap_get_absent {rem : Bool} {m : Hashmap} {is : List Nat}
    {A : List (Key × Nat)} (hInv : Inv rem m is A) {k : Key}
    (habs : k ∉ keysOf A) :
    hashmap_get rem m k k.length = (m, false, 0) := by
  obtain ⟨e, t₀, helt, hnein, hempty, _, _, _, hfind⟩ := find_entry_absent hInv habs
  simp only [hashmap_get, hfind, hempty]
  rfl

theorem hashmap_size_eq {m : Hashmap} {is : List Nat} {A : List (Key × Nat)}
    (hInv : Inv true m is A) : hashmap_size true m = A.length := by
  show m.count - m.tombstone_count = A.length
  have hpart := chainLive_length_add_tombs m.buckets is
  rw [hInv.live_eq] at hpart
  have hte := hInv.tomb_eq
  have hce := hInv.count_eq
  omega

/-- Removing a present key tombstones exactly its slot. -/
theorem hashmap_remove_spec {m : Hashmap} {is : List Nat} {A : List (Key × Nat)}
    (hInv : Inv true m is A) {k : Key} {v : Nat} (hmem : (k, v) ∈ A) :
    ∃ i, i ∈ is ∧ (bget m.buckets i).key = some k ∧ (bget m.buckets i).value = v ∧
      hashmap_remove m k k.length =
        { m with
          buckets := m.buckets.set i { bget m.buckets i with key := none, value := 0xDEAD },
          tombstone_count := m.tombstone_count + 1 } ∧
      Inv true (hashmap_remove m k k.length) is (absRemove A k) := by
  obtain ⟨i, hi, hk, hv, hfind⟩ := find_entry_present hInv hmem
  have hred : hashmap_remove m k k.length =
      { m with
        buckets := m.buckets.set i { bget m.buckets i with key := none, value := 0xDEAD },
        tombstone_count := m.tombstone_count + 1 } := by
    simp only [hashmap_remove, hfind, hk]
    rfl
  refine ⟨i, hi, hk, hv, hred, ?_⟩
  rw [hred]
  exact inv_remove_at hInv hi hk

/-- Removing an absent key leaves the whole table untouched. -/
theorem hashmap_remove_absent {m : Hashmap} {is : List Nat} {A : List (Key × Nat)}
    (hInv : Inv true m is A) {k : Key} (habs : k ∉ keysOf A) :
    hashmap_remove m k k.length = m := by
  obtain ⟨e, t₀, helt, hnein, hempty, _, _, _, hfind⟩ := find_entry_absent hInv habs
  simp only [hashmap_remove, hfind, hempty]
  rfl

/-- Removing a present key with the release callback: one callback invocation with
the outgoing entry, then the same tombstoning. -/
theorem hashmap_remove_free_spec {m : Hashmap} {is : List Nat} {A : List (Key × Nat)}
    (hInv : Inv true m is A) {k : Key} {v : Nat} (hmem : (k, v) ∈ A) :
    ∃ i, i ∈ is ∧ (bget m.buckets i).key = some k ∧ (bget m.buckets i).value = v ∧
      hashmap_remove_free m k k.length =
        ({ m with
           buckets := m.buckets.set i { bget m.buckets i with key := none, value := 0xDEAD },
           tombstone_count := m.tombstone_count + 1 },
         [(some k, (bget m.buckets i).ksize, v)]) ∧
      Inv true (hashmap_remove_free m k k.length).1 is (absRemove A k) := by
  obtain ⟨i, hi, hk, hv, hfind⟩ := find_entry_present hInv hmem
  have hred : hashmap_remove_free m k k.length =
      ({ m with
         buckets := m.buckets.set i { bget m.buckets i with key := none, value := 0xDEAD },
         tombstone_count := m.tombstone_count + 1 },
       [(some k, (bget m.buckets i).ksize, v)]) := by
    simp only [hashmap_remove_free, hfind, hk, hv]
    rfl
  refine ⟨i, hi, hk, hv, hred, ?_⟩
  rw [hred]
  exact inv_remove_at hInv hi hk

/-- Removing an absent key with the release callback does nothing and never
invokes the callback. -/
theorem hashmap_remove_free_absent {m : Hashmap} {is : List Nat} {A : List (Key × Nat)}
    (hInv : Inv true m is A) {k : Key} (habs : k ∉ keysOf A) :
    hashmap_remove_free m k k.length = (m, []) := by
  obtain ⟨e, t₀, helt, hnein, hempty, _, _, _, hfind⟩ := find_entry_absent hInv habs
  simp only [hashmap_remove_free, hfind, hempty]
  rfl

theorem needsResize_false {m : Hashmap} (h : 4 * (m.count + 1) ≤ 3 * m.capacity) :
    needsResize m = false := by
  unfold needsResize
  exact decide_eq_false (by omega)

theorem needsResize_false_load {m : Hashmap} (h : needsResize m = false) :
    4 * (m.count + 1) ≤ 3 * m.capacity := by
  unfold needsResize at h
  have := of_decide_eq_false h
  omega

theorem Inv.abs_len_le {rem : Bool} {m : Hashmap} {is : List Nat} {A : List (Key × Nat)}
    (hInv : Inv rem m is A) : A.length ≤ is.length := by
  rw [← hInv.live_eq]
  exact List.length_filterMap_le _ _

/-- `hashmap_set` on a table that does not trigger the resize. -/
theorem hashmap_set_spec_nr {rem : Bool} {m : Hashmap} {is : List Nat}
    {A : List (Key × Nat)} (hInv : Inv rem m is A)
    (hnr : needsResize m = false) (k : Key) (v : Nat) :
    ∃ is', Inv rem (hashmap_set rem m k k.length v) is' (absSet A k v) ∧
      (hashmap_set rem m k k.length v).capacity = m.capacity ∧
      (k ∈ keysOf A → is' = is ∧ (hashmap_set rem m k k.length v).count = m.count) ∧
      (k ∉ keysOf A → ∃ e, e ∉ is ∧ e < m.capacity ∧
        bget m.buckets e = emptyBucket ∧ is' = is ++ [e] ∧
        (bget (hashmap_set rem m k k.length v).buckets e).key = some k ∧
        isChain (hashmap_set rem m k k.length v).buckets
          (hashmap_set rem m k k.length v).first (is ++ [e]) ∧
        (∀ p, p ≠ e →
          (bget (hashmap_set rem m k k.length v).buckets p).key = (bget m.buckets p).key ∧
          (bget (hashmap_set rem m k k.length v).buckets p).value =
            (bget m.buckets p).value)) := by
  have hload : 4 * (m.count + 1) ≤ 3 * m.capacity := needsResize_false_load hnr
  by_cases hkin : k ∈ keysOf A
  · obtain ⟨v0, hv0⟩ := mem_keysOf.mp hkin
    obtain ⟨i, hi, hk, hv, hfind⟩ := find_entry_present hInv hv0
    have hiN : ((bget m.buckets i).key.isNone : Bool) = false := by rw [hk]; rfl
    have hred : hashmap_set rem m k k.length v =
        { m with buckets := m.buckets.set i { bget m.buckets i with value := v } } := by
      simp only [hashmap_set, hnr, Bool.false_eq_true, if_false, hfind, hiN]
    refine ⟨is, ?_, ?_, fun _ => ⟨rfl, ?_⟩, fun hco => absurd hkin hco⟩
    · rw [hred]
      exact inv_overwrite hInv hi hk
    · rw [hred]
    · rw [hred]
  · obtain ⟨e, t₀, helt, hnein, hempty, hee, ht₀, hmin, hfind⟩ :=
      find_entry_absent hInv hkin
    have hiN : ((bget m.buckets e).key.isNone : Bool) = true := by rw [hempty]; rfl
    set st := linkAppend m.buckets m.first m.last e
      { next := none, key := some k, ksize := k.length,
        hash := hash_data k k.length, value := v } with hst
    have hred : hashmap_set rem m k k.length v =
        { m with buckets := st.1, first := st.2.1, last := st.2.2,
                 count := m.count + 1 } := by
      simp only [hashmap_set, hnr, Bool.false_eq_true, if_false, hfind, hiN, if_true, hst]
    have hInv' := inv_fresh_insert hInv hkin hload helt hnein hee ht₀ hmin hst
    have habsSet : absSet A k v = A ++ [(k, v)] := by
      unfold absSet
      rw [if_neg hkin]
    refine ⟨is ++ [e], ?_, ?_, fun hco => absurd hco hkin, fun _ => ?_⟩
    · rw [hred, habsSet]
      exact hInv'
    · rw [hred]
    · have helt' : e < m.buckets.length := by rw [hInv.blen]; exact helt
      refine ⟨e, hnein, helt, hempty, rfl, ?_, ?_, ?_⟩
      · rw [hred]
        show (bget st.1 e).key = some k
        rw [hst, linkAppend_bget_e helt']
      · rw [hred]
        exact hInv'.chain
      · intro p hp
        rw [hred]
        exact ⟨(linkAppend_core_ne hp).1, (linkAppend_core_ne hp).2.2.2⟩

/-- `hashmap_get_set` on a table that does not trigger the resize. -/
theorem hashmap_get_set_spec_nr {rem : Bool} {m : Hashmap} {is : List Nat}
    {A : List (Key × Nat)} (hInv : Inv rem m is A)
    (hnr : needsResize m = false) (k : Key) (w : Nat) :
    (∀ v, (k, v) ∈ A → hashmap_get_set rem m k k.length w = (m, true, v)) ∧
    (k ∉ keysOf A → ∃ e, e ∉ is ∧
      Inv rem (hashmap_get_set rem m k k.length w).1 (is ++ [e]) (A ++ [(k, w)]) ∧
      (hashmap_get_set rem m k k.length w).2 = (false, w) ∧
      (hashmap_get_set rem m k k.length w).1.capacity = m.capacity) := by
  have hload : 4 * (m.count + 1) ≤ 3 * m.capacity := needsResize_false_load hnr
  constructor
  · intro v hv0
    obtain ⟨i, hi, hk, hv, hfind⟩ := find_entry_present hInv hv0
    have hiN : ((bget m.buckets i).key.isNone : Bool) = false := by rw [hk]; rfl
    simp only [hashmap_get_set, hnr, Bool.false_eq_true, if_false, hfind, hiN, hv]
  · intro hkin
    obtain ⟨e, t₀, helt, hnein, hempty, hee, ht₀, hmin, hfind⟩ :=
      find_entry_absent hInv hkin
    have hiN : ((bget m.buckets e).key.isNone : Bool) = true := by rw [hempty]; rfl
    set st := linkAppend m.buckets m.first m.last e
      { next := none, key := some k, ksize := k.length,
        hash := hash_data k k.length, value := w } with hst
    have hred : hashmap_get_set rem m k k.length w =
        ({ m with buckets := st.1, first := st.2.1, last := st.2.2,
                  count := m.count + 1 }, false, w) := by
      simp only [hashmap_get_set, hnr, Bool.false_eq_true, if_false, hfind, hiN,
        if_true, hst]
    have hInv' := inv_fresh_insert hInv hkin hload helt hnein hee ht₀ hmin hst
      (v := w)
    refine ⟨e, hnein, ?_, ?_, ?_⟩
    · rw [hred]
      exact hInv'
    · rw [hred]
    · rw [hred]

theorem mem_unique_of_keys_nodup {A : List (Key × Nat)} (h : (keysOf A).Nodup)
    {k : Key} {v1 v2 : Nat} (h1 : (k, v1) ∈ A) (h2 : (k, v2) ∈ A) : v1 = v2 := by
  induction A with
  | nil => simp at h1
  | cons p rest ih =>
    rw [show keysOf (p :: rest) = p.1 :: keysOf rest from rfl, List.nodup_cons] at h
    rcases List.mem_cons.mp h1 with he1 | ht1 <;> rcases List.mem_cons.mp h2 with he2 | ht2
    · rw [← he2] at he1
      exact congrArg Prod.snd he1
    · exfalso
      apply h.1
      rw [← he1]
      exact List.mem_map.mpr ⟨(k, v2), ht2, rfl⟩
    · exfalso
      apply h.1
      rw [← he2]
      exact List.mem_map.mpr ⟨(k, v1), ht1, rfl⟩
    · exact ih h.2 ht1 ht2

/-- `hashmap_set_free` on a table that does not trigger the resize. -/
theorem hashmap_set_free_spec_nr {rem : Bool} {m : Hashmap} {is : List Nat}
    {A : List (Key × Nat)} (hInv : Inv rem m is A)
    (hnr : needsResize m = false) (k : Key) (v : Nat) :
    ∃ is', Inv rem (hashmap_set_free rem m k k.length v).1 is' (absSet A k v) ∧
      (hashmap_set_free rem m k k.length v).1.capacity = m.capacity ∧
      (k ∉ keysOf A → (hashmap_set_free rem m k k.length v).2 = []) ∧
      (∀ v0, (k, v0) ∈ A →
        (hashmap_set_free rem m k k.length v).2 = [(some k, k.length, v0)]) := by
  have hload := needsResize_false_load hnr
  by_cases hkin : k ∈ keysOf A
  · obtain ⟨v0, hv0⟩ := mem_keysOf.mp hkin
    obtain ⟨i, hi, hk, hv, hfind⟩ := find_entry_present hInv hv0
    have hiN : ((bget m.buckets i).key.isNone : Bool) = false := by rw [hk]; rfl
    have hrec : ({ bget m.buckets i with key := some k, value := v } : Bucket)
        = { bget m.buckets i with value := v } := by rw [← hk]
    have hred : hashmap_set_free rem m k k.length v =
        ({ m with buckets := m.buckets.set i { bget m.buckets i with value := v } },
         [((bget m.buckets i).key, k.length, (bget m.buckets i).value)]) := by
      simp only [hashmap_set_free, hnr, Bool.false_eq_true, if_false, hfind, hiN, hrec]
    refine ⟨is, ?_, ?_, fun hco => absurd hkin hco, ?_⟩
    · rw [hred]
      exact inv_overwrite hInv hi hk
    · rw [hred]
    · intro v1 hv1
      rw [hred, hk, hv]
      rw [mem_unique_of_keys_nodup hInv.keys_nodup hv1 hv0]
  · obtain ⟨e, t₀, helt, hnein, hempty, hee, ht₀, hmin, hfind⟩ :=
      find_entry_absent hInv hkin
    have hiN : ((bget m.buckets e).key.isNone : Bool) = true := by rw [hempty]; rfl
    set st := linkAppend m.buckets m.first m.last e
      { next := none, key := some k, ksize := k.length,
        hash := hash_data k k.length, value := v } with hst
    have hred : hashmap_set_free rem m k k.length v =
        ({ m with buckets := st.1, first := st.2.1, last := st.2.2,
                  count := m.count + 1 }, []) := by
      simp only [hashmap_set_free, hnr, Bool.false_eq_true, if_false, hfind, hiN,
        if_true, hst]
    have hInv' := inv_fresh_insert hInv hkin hload helt hnein hee ht₀ hmin hst
    have habsSet : absSet A k v = A ++ [(k, v)] := by
      unfold absSet
      rw [if_neg hkin]
    refine ⟨is ++ [e], ?_, ?_, fun _ => ?_, fun v1 hv1 =>
      absurd (mem_keysOf.mpr ⟨v1, hv1⟩) hkin⟩
    · rw [hred, habsSet]
      exact hInv'
    · rw [hred]
    · rw [hred]

/-- Taking the resize branch of an insert-class prologue keeps the invariant and
leaves a table that will not resize again on this insert. -/
theorem insert_prologue_resize {rem : Bool} {m : Hashmap} {is : List Nat}
    {A : List (Key × Nat)} (hInv : Inv rem m is A) :
    ∃ is2, Inv rem (hashmap_resize rem m) is2 A ∧
      needsResize (hashmap_resize rem m) = false ∧
      (hashmap_resize rem m).capacity = 2 * m.capacity := by
  obtain ⟨is2, hInv2, hcap2, hcount2, _⟩ := inv_resize hInv
  have h1 := hInv.abs_len_le
  have h2 := hInv.count_eq
  have h3 := hInv.load
  have h4 := hInv.cap_ge
  refine ⟨is2, hInv2, needsResize_false ?_, hcap2⟩
  rw [hcount2, hcap2]
  omega

theorem hashmap_set_resize_eq {rem : Bool} {m : Hashmap} (hnr : needsResize m = true)
    (hnr2 : needsResize (hashmap_resize rem m) = false) (k : Key) (ks v : Nat) :
    hashmap_set rem m k ks v = hashmap_set rem (hashmap_resize rem m) k ks v := by
  simp only [hashmap_set, hnr, hnr2, if_true, Bool.false_eq_true, if_false]

theorem hashmap_get_set_resize_eq {rem : Bool} {m : Hashmap}
    (hnr : needsResize m = true) (hnr2 : needsResize (hashmap_resize rem m) = false)
    (k : Key) (ks w : Nat) :
    hashmap_get_set rem m k ks w = hashmap_get_set rem (hashmap_resize rem m) k ks w := by
  simp only [hashmap_get_set, hnr, hnr2, if_true, Bool.false_eq_true, if_false]

theorem hashmap_set_free_resize_eq {rem : Bool} {m : Hashmap}
    (hnr : needsResize m = true) (hnr2 : needsResize (hashmap_resize rem m) = false)
    (k : Key) (ks v : Nat) :
    hashmap_set_free rem m k ks v =
      hashmap_set_free rem (hashmap_resize rem m) k ks v := by
  simp only [hashmap_set_free, hnr, hnr2, if_true, Bool.false_eq_true, if_false]

/-- Full specification of `hashmap_set`. -/
theorem hashmap_set_spec {rem : Bool} {m : Hashmap} {is : List Nat}
    {A : List (Key × Nat)} (hInv : Inv rem m is A) (k : Key) (v : Nat) :
    ∃ is', Inv rem (hashmap_set rem m k k.length v) is' (absSet A k v) ∧
      ((hashmap_set rem m k k.length v).capacity = m.capacity ∨
        (hashmap_set rem m k k.length v).capacity = 2 * m.capacity) := by
  cases hnr : needsResize m with
  | false =>
    obtain ⟨is', h1, h2, _⟩ := hashmap_set_spec_nr hInv hnr k v
    exact ⟨is', h1, Or.inl h2⟩
  | true =>
    obtain ⟨is2, hInv2, hnr2, hcap2⟩ := insert_prologue_resize hInv
    rw [hashmap_set_resize_eq hnr hnr2]
    obtain ⟨is', h1, h2, _⟩ := hashmap_set_spec_nr hInv2 hnr2 k v
    refine ⟨is', h1, Or.inr ?_⟩
    rw [h2, hcap2]

/-- Full specification of `hashmap_get_set`. -/
theorem hashmap_get_set_spec {rem : Bool} {m : Hashmap} {is : List Nat}
    {A : List (Key × Nat)} (hInv : Inv rem m is A) (k : Key) (w : Nat) :
    ∃ is', Inv rem (hashmap_get_set rem m k k.length w).1 is' (absGetSet A k w) ∧
      ((hashmap_get_set rem m k k.length w).1.capacity = m.capacity ∨
        (hashmap_get_set rem m k k.length w).1.capacity = 2 * m.capacity) ∧
      (∀ v, (k, v) ∈ A → (hashmap_get_set rem m k k.length w).2 = (true, v)) ∧
      (k ∉ keysOf A → (hashmap_get_set rem m k k.length w).2 = (false, w)) ∧
      (needsResize m = false → ∀ v, (k, v) ∈ A →
        (hashmap_get_set rem m k k.length w).1 = m) := by
  cases hnr : needsResize m with
  | false =>
    obtain ⟨hpres, habs⟩ := hashmap_get_set_spec_nr hInv hnr k w
    by_cases hkin : k ∈ keysOf A
    · obtain ⟨v0, hv0⟩ := mem_keysOf.mp hkin
      have hr := hpres v0 hv0
      have habsGet : absGetSet A k w = A := by unfold absGetSet; rw [if_pos hkin]
      refine ⟨is, ?_, ?_, ?_, fun hco => absurd hkin hco, fun _ v hv => by rw [hpres v hv]⟩
      · rw [hr, habsGet]
        exact hInv
      · rw [hr]
        exact Or.inl rfl
      · intro v hv
        rw [hpres v hv]
    · obtain ⟨e, hne, hInv', hsnd, hcap⟩ := habs hkin
      have habsGet : absGetSet A k w = A ++ [(k, w)] := by
        unfold absGetSet; rw [if_neg hkin]
      refine ⟨is ++ [e], ?_, Or.inl hcap, fun v hv =>
        absurd (mem_keysOf.mpr ⟨v, hv⟩) hkin, fun _ => hsnd, ?_⟩
      · rw [habsGet]
        exact hInv'
      · intro hco v hv
        exact absurd (mem_keysOf.mpr ⟨v, hv⟩) hkin
  | true =>
    obtain ⟨is2, hInv2, hnr2, hcap2⟩ := insert_prologue_resize hInv
    rw [hashmap_get_set_resize_eq hnr hnr2]
    obtain ⟨hpres, habs⟩ := hashmap_get_set_spec_nr hInv2 hnr2 k w
    by_cases hkin : k ∈ keysOf A
    · obtain ⟨v0, hv0⟩ := mem_keysOf.mp hkin
      have hr := hpres v0 hv0
      have habsGet : absGetSet A k w = A := by unfold absGetSet; rw [if_pos hkin]
      refine ⟨is2, ?_, ?_, ?_, fun hco => absurd hkin hco,
        fun hco _ _ => by simp [hnr] at hco⟩
      · rw [hr, habsGet]
        exact hInv2
      · rw [hr]
        exact Or.inr hcap2
      · intro v hv
        rw [hpres v hv]
    · obtain ⟨e, hne, hInv', hsnd, hcap⟩ := habs hkin
      have habsGet : absGetSet A k w = A ++ [(k, w)] := by
        unfold absGetSet; rw [if_neg hkin]
      refine ⟨is2 ++ [e], ?_, Or.inr (by rw [hcap, hcap2]), fun v hv =>
        absurd (mem_keysOf.mpr ⟨v, hv⟩) hkin, fun _ => hsnd,
        fun hco _ _ => by simp [hnr] at hco⟩
      rw [habsGet]
      exact hInv'

/-- Full specification of `hashmap_set_free`. -/
theorem hashmap_set_free_spec {rem : Bool} {m : Hashmap} {is : List Nat}
    {A : List (Key × Nat)} (hInv : Inv rem m is A) (k : Key) (v : Nat) :
    ∃ is', Inv rem (hashmap_set_free rem m k k.length v).1 is' (absSet A k v) ∧
      ((hashmap_set_free rem m k k.length v).1.capacity = m.capacity ∨
        (hashmap_set_free rem m k k.length v).1.capacity = 2 * m.capacity) ∧
      (k ∉ keysOf A → (hashmap_set_free rem m k k.length v).2 = []) ∧
      (∀ v0, (k, v0) ∈ A →
        (hashmap_set_free rem m k k.length v).2 = [(some k, k.length, v0)]) := by
  cases hnr : needsResize m with
  | false =>
    obtain ⟨is', h1, h2, h3, h4⟩ := hashmap_set_free_spec_nr hInv hnr k v
    exact ⟨is', h1, Or.inl h2, h3, h4⟩
  | true =>
    obtain ⟨is2, hInv2, hnr2, hcap2⟩ := insert_prologue_resize hInv
    rw [hashmap_set_free_resize_eq hnr hnr2]
    obtain ⟨is', h1, h2, h3, h4⟩ := hashmap_set_free_spec_nr hInv2 hnr2 k v
    exact ⟨is', h1, Or.inr (by rw [h2, hcap2]), h3, h4⟩

/-- Every reachable table satisfies the representation invariant with respect to
its insertion-ordered abstract state. -/
theorem reach_inv {rem : Bool} {m : Hashmap} {A : List (Key × Nat)}
    (h : Reach rem m A) : ∃ is, Inv rem m is A := by
  induction h with
  | create rem => exact ⟨[], inv_create rem⟩
  | set k v _ ih =>
    obtain ⟨is, hInv⟩ := ih
    obtain ⟨is', hInv', _⟩ := hashmap_set_spec hInv k v
    exact ⟨is', hInv'⟩
  | get_set k v _ ih =>
    obtain ⟨is, hInv⟩ := ih
    obtain ⟨is', hInv', _⟩ := hashmap_get_set_spec hInv k v
    exact ⟨is', hInv'⟩
  | set_free k v _ ih =>
    obtain ⟨is, hInv⟩ := ih
    obtain ⟨is', hInv', _⟩ := hashmap_set_free_spec hInv k v
    exact ⟨is', hInv'⟩
  | @remove m' A' k _ ih =>
    obtain ⟨is, hInv⟩ := ih
    by_cases hkin : k ∈ keysOf A'
    · obtain ⟨v, hv⟩ := mem_keysOf.mp hkin
      obtain ⟨i, _, _, _, _, hInv'⟩ := hashmap_remove_spec hInv hv
      exact ⟨is, hInv'⟩
    · rw [hashmap_remove_absent hInv hkin,
        show absRemove A' k = A' from filter_ne_of_not_mem hkin]
      exact ⟨is, hInv⟩
  | @remove_free m' A' k _ ih =>
    obtain ⟨is, hInv⟩ := ih
    by_cases hkin : k ∈ keysOf A'
    · obtain ⟨v, hv⟩ := mem_keysOf.mp hkin
      obtain ⟨i, _, _, _, _, hInv'⟩ := hashmap_remove_free_spec hInv hv
      exact ⟨is, hInv'⟩
    · rw [hashmap_remove_free_absent hInv hkin,
        show absRemove A' k = A' from filter_ne_of_not_mem hkin]
      exact ⟨is, hInv⟩

/-! ## Iteration lemmas -/

/-- The map.c `hashmap_iterate` walk visits at most `n + 1` further nodes once the
counter reaches `1001 - n`. -/
theorem iterate_loop_length_le (rem : Bool) (bs : List Bucket) :
    ∀ (n : Nat) (cur : Option Nat) (co : Nat), 1001 ≤ co + n →
      (iterate_loop rem bs cur co).length ≤ n + 1 := by
  intro n
  induction n with
  | zero =>
    intro cur co hco
    cases cur with
    | none => simp [iterate_loop]
    | some i =>
      simp only [iterate_loop]
      rw [dif_pos (show co > 1000 by omega)]
      split <;> simp
  | succ n ih =>
    intro cur co hco
    cases cur with
    | none => simp [iterate_loop]
    | some i =>
      simp only [iterate_loop]
      by_cases hgt : co > 1000
      · rw [dif_pos hgt]
        split <;> simp
      · rw [dif_neg hgt]
        rw [List.length_append]
        have h1 := ih (bget bs i).next (co + 1) (by omega)
        have h2 : (if rem && (bget bs i).key.isNone then ([] : List CbCall)
            else [((bget bs i).key, (bget bs i).ksize, (bget bs i).value)]).length ≤ 1 := by
          split <;> simp
        omega

/-- The map.c `hashmap_iterate` never makes more than 1002 callback visits,
whatever the table contains. -/
theorem hashmap_iterate_length_le (rem : Bool) (m : Hashmap) :
    (hashmap_iterate rem m).length ≤ 1002 :=
  iterate_loop_length_le rem m.buckets 1001 m.first 0 (by omega)

/-- The map.h `hashmap_iterate` walk over a chain emits exactly the live entries
of the chain, in order. -/
theorem iterate_loop_h_chain {rem : Bool} {bs : List Bucket} :
    ∀ (l : List Nat) (fuel : Nat) (cur : Option Nat), isChain bs cur l →
      l.length ≤ fuel →
      (rem = false → ∀ i ∈ l, (bget bs i).key ≠ none) →
      (∀ i ∈ l, ∀ k, (bget bs i).key = some k → (bget bs i).ksize = k.length) →
      iterate_loop_h rem bs fuel cur =
        (chainLive bs l).map (fun p => (some p.1, p.1.length, p.2)) := by
  intro l
  induction l with
  | nil =>
    intro fuel cur hch _ _ _
    have hcur : cur = none := hch
    subst hcur
    cases fuel <;> rfl
  | cons i rest ih =>
    intro fuel cur hch hf hnt hso
    obtain ⟨hcur, hch'⟩ := hch
    subst hcur
    cases fuel with
    | zero => simp at hf
    | succ f =>
      have hf' : rest.length ≤ f := by rw [List.length_cons] at hf; omega
      have ihr := ih f (bget bs i).next hch' hf'
        (fun hr p hp => hnt hr p (List.mem_cons_of_mem _ hp))
        (fun p hp => hso p (List.mem_cons_of_mem _ hp))
      cases hk : (bget bs i).key with
      | some k =>
        have hcond : (rem && (bget bs i).key.isNone) = false := by rw [hk]; simp
        have hksz : (bget bs i).ksize = k.length := hso i (List.mem_cons_self _ _) k hk
        simp only [iterate_loop_h, hcond, Bool.false_eq_true, if_false]
        rw [chainLive_cons_occ hk, List.map_cons, ihr, hk, hksz]
        rfl
      | none =>
        have hrem : rem = true := by
          cases hrt : rem with
          | true => rfl
          | false => exact absurd hk (hnt hrt i (List.mem_cons_self _ _))
        have hcond : (rem && (bget bs i).key.isNone) = true := by
          rw [hrem, hk]; rfl
        simp only [iterate_loop_h, hcond, if_true]
        rw [chainLive_cons_tomb hk, ihr]
        rfl

/-- On a reachable table, the map.h iterate (with sufficient fuel) emits exactly
the abstract state: one callback per live entry, in insertion order. -/
theorem hashmap_iterate_h_spec {rem : Bool} {m : Hashmap} {is : List Nat}
    {A : List (Key × Nat)} (hInv : Inv rem m is A) {fuel : Nat}
    (hfuel : is.length ≤ fuel) :
    hashmap_iterate_h rem m fuel = A.map (fun p => (some p.1, p.1.length, p.2)) := by
  unfold hashmap_iterate_h
  rw [iterate_loop_h_chain is fuel m.first hInv.chain hfuel hInv.no_tombs
    (fun i hi k hk => (hInv.slot_occ i hi k hk).1), hInv.live_eq]

/-! ## Building large reachable tables -/

/-- Folding `hashmap_set` over fresh, pairwise-distinct keys appends them all. -/
theorem reach_insert_distinct :
    ∀ (ks : List Key) (m : Hashmap) (A : List (Key × Nat)),
      Reach false m A → (∀ k ∈ ks, k ∉ keysOf A) → ks.Nodup →
      Reach false (ks.foldl (fun mm k => hashmap_set false mm k k.length 0) m)
        (A ++ ks.map (fun k => (k, 0))) := by
  intro ks
  induction ks with
  | nil =>
    intro m A hR _ _
    simpa using hR
  | cons k ks ih =>
    intro m A hR hfresh hnd
    rw [List.foldl_cons, List.map_cons]
    have hset := Reach.set k 0 hR
    have habs : absSet A k 0 = A ++ [(k, 0)] := by
      unfold absSet
      rw [if_neg (hfresh k (List.mem_cons_self _ _))]
    rw [habs] at hset
    have hfresh2 : ∀ k2 ∈ ks, k2 ∉ keysOf (A ++ [(k, 0)]) := by
      intro k2 hk2 hmem
      rw [keysOf_append] at hmem
      rcases List.mem_append.mp hmem with h | h
      · exact hfresh k2 (List.mem_cons_of_mem _ hk2) h
      · have hkk : k2 = k := by simpa [keysOf] using h
        exact (List.nodup_cons.mp hnd).1 (hkk ▸ hk2)
    have hfold := ih _ _ hset hfresh2 (List.nodup_cons.mp hnd).2
    rwa [List.append_assoc] at hfold

/-! ## Assorted helpers for the claim theorems -/

/-- `hashmap_remove` never touches any `next` link: the physical chain is intact. -/
theorem hashmap_remove_chain {m : Hashmap} (k : Key) (ks : Nat) {is : List Nat}
    (hch : isChain m.buckets m.first is) :
    isChain (hashmap_remove m k ks).buckets (hashmap_remove m k ks).first is := by
  cases hf : find_entry true m k ks (hash_data k ks) with
  | none => simpa [hashmap_remove, hf] using hch
  | some e =>
    cases hk : ((bget m.buckets e).key.isNone : Bool) with
    | true => simpa [hashmap_remove, hf, hk] using hch
    | false =>
      have hred : hashmap_remove m k ks =
          { m with
            buckets := m.buckets.set e { bget m.buckets e with key := none, value := 0xDEAD },
            tombstone_count := m.tombstone_count + 1 } := by
        simp only [hashmap_remove, hf, hk, Bool.false_eq_true, if_false]
      rw [hred]
      refine isChain_congr ?_ hch
      intro p _
      rcases eq_or_ne p e with rfl | hpe
      · by_cases hlt : p < m.buckets.length
        · rw [bget_set_self hlt]
        · rw [List.set_eq_of_length_le (by omega)]
      · rw [bget_set_ne (fun h => hpe h.symm)]

theorem not_mem_keysOf_absRemove (A : List (Key × Nat)) (k : Key) :
    k ∉ keysOf (absRemove A k) := by
  intro h
  obtain ⟨v, hv⟩ := mem_keysOf.mp h
  unfold absRemove at hv
  have := (List.mem_filter.mp hv).2
  simp at this

theorem absRemove_length {A : List (Key × Nat)} (h : (keysOf A).Nodup) {k : Key}
    {v : Nat} (hmem : (k, v) ∈ A) : (absRemove A k).length + 1 = A.length := by
  obtain ⟨L1, L2, rfl⟩ := List.append_of_mem hmem
  rw [keysOf_append,
    show keysOf ((k, v) :: L2) = k :: keysOf L2 from rfl, List.nodup_append] at h
  have hk1 : k ∉ keysOf L1 := fun hm => h.2.2 hm (List.mem_cons_self _ _)
  have hk2 : k ∉ keysOf L2 := (List.nodup_cons.mp h.2.1).1
  unfold absRemove
  rw [List.filter_append, List.filter_cons, if_neg (by simp),
    filter_ne_of_not_mem hk1, filter_ne_of_not_mem hk2]
  simp only [List.length_append, List.length_cons]
  omega

/-! ## C1: the concrete default-capacity fill scenario -/

/-- The table of the default (non-removable) build after inserting the first `n`
single-byte keys `[0] .. [n-1]` with values `100 + byte`. -/
def c1Insert (n : Nat) : Hashmap :=
  ((List.range n).map (fun j => [j])).foldl
    (fun mm kb => hashmap_set false mm kb kb.length (kb.headD 0 + 100)) hashmap_create

set_option maxRecDepth 10000 in
/-- C1 counterexample: after inserting 15 distinct keys into a default table the
capacity is still 20 — no resize happens during the 15th insert, because the
trigger `count + 1 > 0.75 * capacity` compares 15 > 15, which is false. -/
theorem c1_counterexample :
    (c1Insert 15).capacity = 20 ∧ ¬((c1Insert 15).capacity = 40) := by decide

set_option maxRecDepth 10000 in
/-- C1 (amended): on a default table (capacity 20, max load 0.75), inserting 15
distinct keys leaves the capacity at 20 after each insert, and the insert of a
16th distinct key triggers a resize to capacity 40 before that insert completes,
after which all 16 keys are retrievable with their original values. -/
theorem c1_fill_and_resize :
    ((List.range 16).map (fun n => (c1Insert n).capacity) = List.replicate 16 20) ∧
    (c1Insert 16).capacity = 40 ∧
    ((List.range 16).map (fun n => (hashmap_get false (c1Insert 16) [n] 1).2)
      = (List.range 16).map (fun n => (true, n + 100))) := by decide

/-! ## C2: the default hash skips every other byte -/

/-- C2: the source's default `hash_data` is not FNV-1a over all of the key's
bytes: it ignores the bytes at odd indices (the loop advances its index twice
per iteration), so the two-byte keys `[1,1]` and `[1,2]` collide, while genuine
FNV-1a (as the claim describes it, modelled by `fnv1a_spec`) separates them, and
the digest of `[1,1]` disagrees with the claimed value. -/
theorem c2_hash_skips_odd_bytes :
    hash_data [1, 1] 2 = hash_data [1, 2] 2 ∧
    fnv1a_spec [1, 1] ≠ fnv1a_spec [1, 2] ∧
    hash_data [1, 1] 2 ≠ fnv1a_spec [1, 1] := by decide

/-! ## C3: the map.c iterate truncates after 1002 visits -/

/-- 1003 pairwise-distinct keys (distinguished by their lengths). -/
def c3Keys : List Key := (List.range 1003).map (fun n => List.replicate n 0)

theorem c3Keys_nodup : c3Keys.Nodup := by
  refine List.Nodup.map_on ?_ (List.nodup_range _)
  intro x _ y _ hxy
  have hlen := congrArg List.length hxy
  simpa using hlen

/-- C3: the map.c `hashmap_iterate` can never invoke the callback more than 1002
times (the `co > 1000` guard breaks the walk), yet a reachable table can hold
1003 live entries — so for such tables live entries are skipped, contradicting
the claim that every live entry is visited regardless of the table's size. -/
theorem c3_iterate_truncates :
    (∀ (rem : Bool) (m : Hashmap), (hashmap_iterate rem m).length ≤ 1002) ∧
    (∃ (m : Hashmap) (A : List (Key × Nat)) (is : List Nat),
      Reach false m A ∧ Inv false m is A ∧
      (hashmap_iterate false m).length < (chainLive m.buckets is).length) := by
  constructor
  · exact hashmap_iterate_length_le
  · have hR := reach_insert_distinct c3Keys hashmap_create [] (Reach.create false)
      (by intro k _ h; simp [keysOf] at h) c3Keys_nodup
    rw [List.nil_append] at hR
    obtain ⟨is, hInv⟩ := reach_inv hR
    refine ⟨_, _, is, hR, hInv, ?_⟩
    rw [hInv.live_eq]
    have hlen : (c3Keys.map (fun k => (k, (0 : Nat)))).length = 1003 := by
      simp [c3Keys]
    rw [hlen]
    have hle := hashmap_iterate_length_le false
      (c3Keys.foldl (fun mm k => hashmap_set false mm k k.length 0) hashmap_create)
    omega

theorem bget_ge {bs : List Bucket} {p : Nat} (h : bs.length ≤ p) :
    bget bs p = emptyBucket := by
  simp [bget, List.getD_eq_getElem?_getD, List.getElem?_eq_none h]

/-! ## C4: the load-factor bound and capacity discipline -/

/-- C4: on every reachable table, immediately after each insert-class operation
(`hashmap_set`, `hashmap_get_set`, `hashmap_set_free`) the enforced load bound
`4 * count ≤ 3 * capacity` (that is, count/capacity ≤ 0.75) holds; the capacity
starts at the positive default 20, never shrinks across an insert, and grows
only by exact doubling. -/
theorem c4_load_factor {rem : Bool} {m : Hashmap} {A : List (Key × Nat)}
    (hR : Reach rem m A) :
    hashmap_create.capacity = 20 ∧ 0 < m.capacity ∧
    (∀ (k : Key) (v : Nat),
      4 * (hashmap_set rem m k k.length v).count ≤
        3 * (hashmap_set rem m k k.length v).capacity ∧
      ((hashmap_set rem m k k.length v).capacity = m.capacity ∨
        (hashmap_set rem m k k.length v).capacity = 2 * m.capacity) ∧
      m.capacity ≤ (hashmap_set rem m k k.length v).capacity) ∧
    (∀ (k : Key) (w : Nat),
      4 * (hashmap_get_set rem m k k.length w).1.count ≤
        3 * (hashmap_get_set rem m k k.length w).1.capacity ∧
      ((hashmap_get_set rem m k k.length w).1.capacity = m.capacity ∨
        (hashmap_get_set rem m k k.length w).1.capacity = 2 * m.capacity) ∧
      m.capacity ≤ (hashmap_get_set rem m k k.length w).1.capacity) ∧
    (∀ (k : Key) (v : Nat),
      4 * (hashmap_set_free rem m k k.length v).1.count ≤
        3 * (hashmap_set_free rem m k k.length v).1.capacity ∧
      ((hashmap_set_free rem m k k.length v).1.capacity = m.capacity ∨
        (hashmap_set_free rem m k k.length v).1.capacity = 2 * m.capacity) ∧
      m.capacity ≤ (hashmap_set_free rem m k k.length v).1.capacity) := by
  obtain ⟨is, hInv⟩ := reach_inv hR
  refine ⟨rfl, hInv.cap_pos, ?_, ?_, ?_⟩
  · intro k v
    obtain ⟨is', hInv', hcap⟩ := hashmap_set_spec hInv k v
    exact ⟨hInv'.load, hcap, by rcases hcap with h | h <;> omega⟩
  · intro k w
    obtain ⟨is', hInv', hcap, _⟩ := hashmap_get_set_spec hInv k w
    exact ⟨hInv'.load, hcap, by rcases hcap with h | h <;> omega⟩
  · intro k v
    obtain ⟨is', hInv', hcap, _⟩ := hashmap_set_free_spec hInv k v
    exact ⟨hInv'.load, hcap, by rcases hcap with h | h <;> omega⟩

/-- C4 witness: the bound instantiated on a concrete table and insert. -/
theorem c4_witness :
    hashmap_create.capacity = 20 ∧
    4 * (hashmap_set false hashmap_create [0] [0].length 5).count ≤
      3 * (hashmap_set false hashmap_create [0] [0].length 5).capacity := by
  have h := c4_load_factor (Reach.create false)
  exact ⟨h.1, (h.2.2.1 [0] 5).1⟩

/-! ## C5: removal correctness (removable build) -/

/-- C5: for every key present in a reachable removable table: right after
`hashmap_remove` the key reads as not-found; `hashmap_size` is exactly one less;
the key's slot is only tombstoned (NULL key, sentinel value 0xDEAD), remaining
physically part of the order list with `count` unchanged; and the slot is
physically reclaimed by a subsequent resize, after which no NULL-key slot is
anything but truly empty. -/
theorem c5_remove_correct {m : Hashmap} {A : List (Key × Nat)}
    (hR : Reach true m A) {k : Key} {v : Nat} (hmem : (k, v) ∈ A) :
    (hashmap_get true (hashmap_remove m k k.length) k k.length).2.1 = false ∧
    hashmap_size true (hashmap_remove m k k.length) + 1 = hashmap_size true m ∧
    (∃ is i, Inv true m is A ∧ i ∈ is ∧ (bget m.buckets i).key = some k ∧
      (bget (hashmap_remove m k k.length).buckets i).key = none ∧
      (bget (hashmap_remove m k k.length).buckets i).value = 0xDEAD ∧
      isChain (hashmap_remove m k k.length).buckets
        (hashmap_remove m k k.length).first is ∧
      (hashmap_remove m k k.length).count = m.count) ∧
    (∀ p, (bget (hashmap_resize true (hashmap_remove m k k.length)).buckets p).key
        = none →
      bget (hashmap_resize true (hashmap_remove m k k.length)).buckets p
        = emptyBucket) := by
  obtain ⟨is, hInv⟩ := reach_inv hR
  obtain ⟨i, hi, hk, hv, hred, hInv'⟩ := hashmap_remove_spec hInv hmem
  have hilt : i < m.buckets.length := by rw [hInv.blen]; exact hInv.mem_lt i hi
  refine ⟨?_, ?_, ?_, ?_⟩
  · rw [hashmap_get_absent hInv' (not_mem_keysOf_absRemove A k)]
  · rw [hashmap_size_eq hInv', hashmap_size_eq hInv]
    exact absRemove_length hInv.keys_nodup hmem
  · refine ⟨is, i, hInv, hi, hk, ?_, ?_, hInv'.chain, ?_⟩
    · rw [hred]
      show (bget (m.buckets.set i
        { bget m.buckets i with key := none, value := 0xDEAD }) i).key = none
      rw [bget_set_self hilt]
    · rw [hred]
      show (bget (m.buckets.set i
        { bget m.buckets i with key := none, value := 0xDEAD }) i).value = 0xDEAD
      rw [bget_set_self hilt]
    · rw [hred]
  · intro p hp
    obtain ⟨is2, hIr, _, _, hocc2, _, _, _⟩ := inv_resize hInv'
    by_cases hplt : p < (hashmap_resize true (hashmap_remove m k k.length)).capacity
    · by_cases hpin : p ∈ is2
      · exact absurd hp (hocc2 p hpin)
      · exact hIr.offchain p hplt hpin
    · refine bget_ge ?_
      rw [hIr.blen]
      omega

/-- C5 witness: instantiated on a one-entry removable table. -/
theorem c5_witness :
    (hashmap_get true
      (hashmap_remove (hashmap_set true hashmap_create [1] [1].length 5) [1] [1].length)
      [1] [1].length).2.1 = false ∧
    hashmap_size true
      (hashmap_remove (hashmap_set true hashmap_create [1] [1].length 5) [1] [1].length)
      + 1 =
    hashmap_size true (hashmap_set true hashmap_create [1] [1].length 5) := by
  have h := c5_remove_correct (Reach.set [1] 5 (Reach.create true))
    (k := [1]) (v := 5) (by decide)
  exact ⟨h.1, h.2.1⟩

/-! ## C6: get-or-insert semantics -/

/-- C6: on every reachable table, `hashmap_get_set` with an in/out parameter `w`:
if the key is present with value `v`, it reports (true, v) — copying the stored
value out — and leaves the table's entries unchanged (abstractly the state is
preserved, and when no resize fires the table is bit-for-bit untouched); if the
key is absent, it inserts a new entry carrying `w` and reports (false, w). -/
theorem c6_get_set {rem : Bool} {m : Hashmap} {A : List (Key × Nat)}
    (hR : Reach rem m A) (k : Key) (w : Nat) :
    (∀ v, (k, v) ∈ A →
      (hashmap_get_set rem m k k.length w).2 = (true, v) ∧
      (∃ is', Inv rem (hashmap_get_set rem m k k.length w).1 is' A) ∧
      (needsResize m = false → (hashmap_get_set rem m k k.length w).1 = m)) ∧
    (k ∉ keysOf A →
      (hashmap_get_set rem m k k.length w).2 = (false, w) ∧
      ∃ is', Inv rem (hashmap_get_set rem m k k.length w).1 is' (A ++ [(k, w)])) := by
  obtain ⟨is, hInv⟩ := reach_inv hR
  obtain ⟨is', hInv', hcap, hpres, habs, hframe⟩ := hashmap_get_set_spec hInv k w
  constructor
  · intro v hv
    have hkin : k ∈ keysOf A := mem_keysOf.mpr ⟨v, hv⟩
    have habsGet : absGetSet A k w = A := by unfold absGetSet; rw [if_pos hkin]
    rw [habsGet] at hInv'
    exact ⟨hpres v hv, ⟨is', hInv'⟩, fun hnr => hframe hnr v hv⟩
  · intro hkin
    have habsGet : absGetSet A k w = A ++ [(k, w)] := by
      unfold absGetSet; rw [if_neg hkin]
    rw [habsGet] at hInv'
    exact ⟨habs hkin, ⟨is', hInv'⟩⟩

/-- C6 witness: both branches on a concrete one-entry table. -/
theorem c6_witness :
    (hashmap_get_set false (hashmap_set false hashmap_create [1] [1].length 7)
      [1] [1].length 9).2 = (true, 7) ∧
    (hashmap_get_set false (hashmap_set false hashmap_create [1] [1].length 7)
      [2] [2].length 9).2 = (false, 9) := by
  have h1 := (c6_get_set (Reach.set [1] 7 (Reach.create false)) [1] 9).1 7 (by decide)
  have h2 := (c6_get_set (Reach.set [1] 7 (Reach.create false)) [2] 9).2 (by decide)
  exact ⟨h1.1, h2.1⟩

/-! ## C7: the order list is exactly the live entries in insertion order -/

/-- C7: in every reachable table state the order list, followed from head to
tail, visits a fixed index sequence whose occupied slots yield exactly the
abstract state (the live entries in original insertion order); every NULL-key
slot on the list is a tombstone of the removable build (still physically
linked — indeed `hashmap_remove` never touches any link), and the resize
rebuilds the list without tombstones while preserving the live order. -/
theorem c7_chain_exact {rem : Bool} {m : Hashmap} {A : List (Key × Nat)}
    (hR : Reach rem m A) :
    ∃ is, isChain m.buckets m.first is ∧ chainLive m.buckets is = A ∧
      (∀ i ∈ is, (bget m.buckets i).key = none →
        rem = true ∧ (bget m.buckets i).value = 0xDEAD) ∧
      (∀ (k : Key) (ks : Nat),
        isChain (hashmap_remove m k ks).buckets (hashmap_remove m k ks).first is) ∧
      (∃ is2,
        isChain (hashmap_resize rem m).buckets (hashmap_resize rem m).first is2 ∧
        (∀ p ∈ is2, (bget (hashmap_resize rem m).buckets p).key ≠ none) ∧
        chainLive (hashmap_resize rem m).buckets is2 = A) := by
  obtain ⟨is, hInv⟩ := reach_inv hR
  obtain ⟨is2, _, _, _, hocc2, _, hlive2, hch2⟩ := inv_resize hInv
  refine ⟨is, hInv.chain, hInv.live_eq, ?_, ?_, is2, hch2, hocc2, hlive2⟩
  · intro i hi hknone
    cases hrem : rem with
    | false => exact absurd hknone (hInv.no_tombs hrem i hi)
    | true => exact ⟨rfl, hInv.slot_tomb i hi hknone⟩
  · intro k ks
    exact hashmap_remove_chain k ks hInv.chain

/-- C7 witness: the chain of a concrete one-entry table. -/
theorem c7_witness :
    ∃ is, isChain (hashmap_set false hashmap_create [1] [1].length 4).buckets
        (hashmap_set false hashmap_create [1] [1].length 4).first is ∧
      chainLive (hashmap_set false hashmap_create [1] [1].length 4).buckets is
        = absSet [] [1] 4 := by
  obtain ⟨is, h1, h2, _⟩ := c7_chain_exact (Reach.set [1] 4 (Reach.create false))
  exact ⟨is, h1, h2⟩

/-! ## C8: get is pure -/

/-- C8: on every reachable table, `hashmap_get` returns the table unchanged in
every case (it never resizes and never mutates capacity, count, tombstones,
slots or links), and on a key that resolves to a true-empty slot (an absent key)
it reports found = false with the zero sentinel as the output value. -/
theorem c8_get_pure {rem : Bool} {m : Hashmap} {A : List (Key × Nat)}
    (hR : Reach rem m A) :
    (∀ (key : Key) (ksize : Nat), (hashmap_get rem m key ksize).1 = m) ∧
    (∀ k : Key, k ∉ keysOf A → hashmap_get rem m k k.length = (m, false, 0)) := by
  obtain ⟨is, hInv⟩ := reach_inv hR
  exact ⟨fun key ksize => hashmap_get_frame rem m key ksize,
    fun k habs => hashmap_get_absent hInv habs⟩

/-- C8 witness: instantiated on the empty table and a missing key. -/
theorem c8_witness :
    (hashmap_get false hashmap_create [3] 1).1 = hashmap_create ∧
    hashmap_get false hashmap_create [3] [3].length = (hashmap_create, false, 0) := by
  have h := c8_get_pure (Reach.create false)
  exact ⟨h.1 [3] 1, h.2 [3] (by decide)⟩

/-! ## C9: removing an absent key is a no-op -/

/-- C9: in the removable build, removing a key that is not present (including a
key that was already removed) leaves the entire table state unchanged — the
result is literally the same table, so no tombstone is created and count,
tombstone count, size and every slot are as before — and `hashmap_remove_free`
additionally never invokes the callback. -/
theorem c9_remove_absent_noop {m : Hashmap} {A : List (Key × Nat)}
    (hR : Reach true m A) {k : Key} (habs : k ∉ keysOf A) :
    hashmap_remove m k k.length = m ∧ hashmap_remove_free m k k.length = (m, []) := by
  obtain ⟨is, hInv⟩ := reach_inv hR
  exact ⟨hashmap_remove_absent hInv habs, hashmap_remove_free_absent hInv habs⟩

/-- C9 witness: removing the same key twice — the second removal (of a now-absent
key) is a no-op and its callback variant reports no invocations. -/
theorem c9_witness :
    hashmap_remove
      (hashmap_remove (hashmap_set true hashmap_create [1] [1].length 5) [1] [1].length)
      [1] [1].length =
      hashmap_remove (hashmap_set true hashmap_create [1] [1].length 5) [1] [1].length ∧
    hashmap_remove_free
      (hashmap_remove (hashmap_set true hashmap_create [1] [1].length 5) [1] [1].length)
      [1] [1].length =
      (hashmap_remove (hashmap_set true hashmap_create [1] [1].length 5) [1] [1].length,
       []) := by
  exact c9_remove_absent_noop
    (Reach.remove [1] (Reach.set [1] 5 (Reach.create true))) (by decide)

/-! ## C10: re-inserting a removed key does not reuse the tombstone -/

/-- C10: in the removable build, when a present key is removed and then inserted
again without an intervening resize (the re-insert itself does not trigger one),
the insert does not reuse the tombstoned slot: the tombstone is still physically
present at its old index `i`, the new entry occupies a previously empty slot
`e ≠ i` appended at the order-list tail, and the live sequence now ends with
that key — it appears in last position rather than at its original one. -/
theorem c10_reinsert_fresh_slot {m : Hashmap} {A : List (Key × Nat)}
    (hR : Reach true m A) {k : Key} {v : Nat} (hmem : (k, v) ∈ A) (v2 : Nat)
    (hnr : needsResize (hashmap_remove m k k.length) = false) :
    ∃ is i e,
      Inv true m is A ∧ i ∈ is ∧ (bget m.buckets i).key = some k ∧ e ∉ is ∧ e ≠ i ∧
      isChain (hashmap_set true (hashmap_remove m k k.length) k k.length v2).buckets
        (hashmap_set true (hashmap_remove m k k.length) k k.length v2).first
        (is ++ [e]) ∧
      (bget (hashmap_set true (hashmap_remove m k k.length) k k.length v2).buckets
        e).key = some k ∧
      (bget (hashmap_set true (hashmap_remove m k k.length) k k.length v2).buckets
        i).key = none ∧
      (bget (hashmap_set true (hashmap_remove m k k.length) k k.length v2).buckets
        i).value = 0xDEAD ∧
      chainLive (hashmap_set true (hashmap_remove m k k.length) k k.length v2).buckets
        (is ++ [e]) = absRemove A k ++ [(k, v2)] ∧
      (chainLive (hashmap_set true (hashmap_remove m k k.length) k k.length v2).buckets
        (is ++ [e])).getLast? = some (k, v2) := by
  obtain ⟨is, hInv⟩ := reach_inv hR
  obtain ⟨i, hi, hk, hv, hred, hInv'⟩ := hashmap_remove_spec hInv hmem
  have habs1 : k ∉ keysOf (absRemove A k) := not_mem_keysOf_absRemove A k
  obtain ⟨is', hInv2, hcap2, hpres, habsent⟩ := hashmap_set_spec_nr hInv' hnr k v2
  obtain ⟨e, hne, helt, hempty1, hiseq, hkey_e, hchain, hpreserve⟩ := habsent habs1
  have hilt : i < m.buckets.length := by rw [hInv.blen]; exact hInv.mem_lt i hi
  have hm1i_k : (bget (hashmap_remove m k k.length).buckets i).key = none := by
    rw [hred]
    show (bget (m.buckets.set i
      { bget m.buckets i with key := none, value := 0xDEAD }) i).key = none
    rw [bget_set_self hilt]
  have hm1i_v : (bget (hashmap_remove m k k.length).buckets i).value = 0xDEAD := by
    rw [hred]
    show (bget (m.buckets.set i
      { bget m.buckets i with key := none, value := 0xDEAD }) i).value = 0xDEAD
    rw [bget_set_self hilt]
  have hie : e ≠ i := fun h => hne (h ▸ hi)
  have habsSet : absSet (absRemove A k) k v2 = absRemove A k ++ [(k, v2)] := by
    unfold absSet
    rw [if_neg habs1]
  have hlive := hInv2.live_eq
  rw [hiseq, habsSet] at hlive
  refine ⟨is, i, e, hInv, hi, hk, hne, hie, hchain, hkey_e, ?_, ?_, hlive, ?_⟩
  · rw [(hpreserve i (fun h => hie h.symm)).1]
    exact hm1i_k
  · rw [(hpreserve i (fun h => hie h.symm)).2]
    exact hm1i_v
  · rw [hlive, List.getLast?_concat]

/-- C10 witness: remove and re-insert the sole key of a one-entry table. -/
theorem c10_witness :
    ∃ is i e,
      Inv true (hashmap_set true hashmap_create [1] [1].length 5) is
        (absSet [] [1] 5) ∧ i ∈ is ∧
      (bget (hashmap_set true hashmap_create [1] [1].length 5).buckets i).key
        = some [1] ∧ e ∉ is ∧ e ≠ i ∧
      isChain (hashmap_set true (hashmap_remove
          (hashmap_set true hashmap_create [1] [1].length 5) [1] [1].length)
          [1] [1].length 9).buckets
        (hashmap_set true (hashmap_remove
          (hashmap_set true hashmap_create [1] [1].length 5) [1] [1].length)
          [1] [1].length 9).first (is ++ [e]) ∧
      (bget (hashmap_set true (hashmap_remove
          (hashmap_set true hashmap_create [1] [1].length 5) [1] [1].length)
          [1] [1].length 9).buckets e).key = some [1] ∧
      (bget (hashmap_set true (hashmap_remove
          (hashmap_set true hashmap_create [1] [1].length 5) [1] [1].length)
          [1] [1].length 9).buckets i).key = none ∧
      (bget (hashmap_set true (hashmap_remove
          (hashmap_set true hashmap_create [1] [1].length 5) [1] [1].length)
          [1] [1].length 9).buckets i).value = 0xDEAD ∧
      chainLive (hashmap_set true (hashmap_remove
          (hashmap_set true hashmap_create [1] [1].length 5) [1] [1].length)
          [1] [1].length 9).buckets (is ++ [e])
        = absRemove (absSet [] [1] 5) [1] ++ [([1], 9)] ∧
      (chainLive (hashmap_set true (hashmap_remove
          (hashmap_set true hashmap_create [1] [1].length 5) [1] [1].length)
          [1] [1].length 9).buckets (is ++ [e])).getLast? = some ([1], 9) := by
  exact c10_reinsert_fresh_slot (Reach.set [1] 5 (Reach.create true))
    (k := [1]) (v := 5) (by decide) 9 (by decide)

end CHashmap

